import Mathlib

/-!
# Package trie (src/trie/trie.go): a shallow embedding and its properties

Modelling decisions, all taken from the Go source:

* A Go `string` is its sequence of bytes (`GoString`, every element below 256).
  `for i, c := range s` is `rangeString s`: the pairs of a byte offset and the
  code point decoded there (an invalid encoding gives U+FFFD and advances by one
  byte); `len(s)` is the number of bytes and `s[i]` is a byte.
* `rune` values and map keys are integers; `%` on them is Go's truncated
  remainder, `Int.tmod`.
* `map[rune]*node` is an association list of keys and optional nodes. A key that
  was assigned `nil` stays in the map with the value `none`, and `len` counts it,
  as Go does. The order of the list stands for the unspecified iteration order.
* The node graph is a tree: `Insert` is the only place where a node is linked,
  and it links a fresh node under the node it stores as `parent`. The `parent`
  field is therefore not stored; a `*node` is the key path from the root
  together with the node found there, and `n.parent` is the path without its
  last key.
* A run-time panic (nil dereference, index out of range, division by zero, the
  explicit `panic` of `Init`) is the result `none` of an operation.
* `Trie.words` is a Go `int`; its 64-bit range cannot be left in fewer than
  2^63 calls and the counter is modelled as an unbounded integer.
-/

namespace trie

/-! ## Strings -/

/-- A Go string, as its bytes. -/
abbrev GoString := List Nat

/-- The code point U+FFFD that Go yields for an invalid encoding. -/
def RuneError : Int := 0xFFFD

/-- The test `lo <= b && b <= hi` on a continuation byte. -/
def inRange (lo hi b : Nat) : Bool := decide (lo ≤ b) && decide (b ≤ hi)

/-- The first code point of a non-empty string and its width in bytes, as
`for range` over a string decodes it (UTF-8, shortest form only, no surrogates,
at most U+10FFFF; anything else is `RuneError` with width 1). -/
def decodeRune : GoString → Int × Nat
  | [] => (RuneError, 1)
  | b0 :: rest =>
    if b0 < 0x80 then ((b0 : Int), 1)
    else if inRange 0xC2 0xDF b0 then
      match rest with
      | b1 :: _ =>
        if inRange 0x80 0xBF b1 then (((b0 % 32 * 64 + b1 % 64 : Nat) : Int), 2)
        else (RuneError, 1)
      | [] => (RuneError, 1)
    else if inRange 0xE0 0xEF b0 then
      match rest with
      | b1 :: b2 :: _ =>
        if inRange (if b0 = 0xE0 then 0xA0 else 0x80) (if b0 = 0xED then 0x9F else 0xBF) b1
            && inRange 0x80 0xBF b2 then
          (((b0 % 16 * 4096 + b1 % 64 * 64 + b2 % 64 : Nat) : Int), 3)
        else (RuneError, 1)
      | _ => (RuneError, 1)
    else if inRange 0xF0 0xF4 b0 then
      match rest with
      | b1 :: b2 :: b3 :: _ =>
        if inRange (if b0 = 0xF0 then 0x90 else 0x80) (if b0 = 0xF4 then 0x8F else 0xBF) b1
            && inRange 0x80 0xBF b2 && inRange 0x80 0xBF b3 then
          (((b0 % 8 * 262144 + b1 % 64 * 4096 + b2 % 64 * 64 + b3 % 64 : Nat) : Int), 4)
        else (RuneError, 1)
      | _ => (RuneError, 1)
    else (RuneError, 1)

/-- The iterations of `for i, c := range s` from byte offset `i` on, `s` being
the rest of the string there; the first argument bounds the number of
iterations (every iteration consumes at least one byte). -/
def rangeFrom : Nat → Nat → GoString → List (Nat × Int)
  | 0, _, _ => []
  | _ + 1, _, [] => []
  | fuel + 1, i, b :: rest =>
    ((i, (decodeRune (b :: rest)).1) ::
      rangeFrom fuel (i + (decodeRune (b :: rest)).2) ((b :: rest).drop (decodeRune (b :: rest)).2))

/-- The pairs `(i, c)` of `for i, c := range s`. -/
def rangeString (s : GoString) : List (Nat × Int) := rangeFrom s.length 0 s

/-- The conversion `string(r)` of a rune: its UTF-8 encoding, and the encoding
of U+FFFD for a value that is not a code point. -/
def runeString (r : Int) : GoString :=
  if r < 0 then [0xEF, 0xBF, 0xBD]
  else if r < 0x80 then [r.toNat]
  else if r < 0x800 then [0xC0 + r.toNat / 64, 0x80 + r.toNat % 64]
  else if 0xD800 ≤ r ∧ r ≤ 0xDFFF then [0xEF, 0xBF, 0xBD]
  else if r < 0x10000 then
    [0xE0 + r.toNat / 4096, 0x80 + r.toNat / 64 % 64, 0x80 + r.toNat % 64]
  else if r ≤ 0x10FFFF then
    [0xF0 + r.toNat / 262144, 0x80 + r.toNat / 4096 % 64, 0x80 + r.toNat / 64 % 64,
      0x80 + r.toNat % 64]
  else [0xEF, 0xBF, 0xBD]

/-- The bytes of a literal, for examples: the UTF-8 encoding of its characters. -/
def str (s : String) : GoString :=
  s.toList.foldr (fun c acc => runeString (c.toNat : Int) ++ acc) []

/-! ## Nodes and maps -/

/-- The struct `node` without its `parent` field: `char`, `nodes`, `end`. -/
inductive node where
  | mk (char : Int) (nodes : List (Int × Option node)) (isEnd : Bool)

/-- The type `map[rune]*node`. -/
abbrev nodeMap := List (Int × Option node)

/-- The field `char`. -/
def node.char : node → Int
  | .mk c _ _ => c

/-- The field `nodes`. -/
def node.nodes : node → nodeMap
  | .mk _ m _ => m

/-- The field `end`. -/
def node.isEnd : node → Bool
  | .mk _ _ e => e

/-- The map read `m[k]`: `nil` for a missing key. -/
def mapGet : nodeMap → Int → Option node
  | [], _ => none
  | (k', v) :: rest, k => if k' = k then v else mapGet rest k

/-- The map write `m[k] = v`. -/
def mapSet : nodeMap → Int → Option node → nodeMap
  | [], k, v => [(k, v)]
  | (k', v') :: rest, k, v => if k' = k then (k, v) :: rest else (k', v') :: mapSet rest k v

/-- The assignment `n.nodes[k] = v`. -/
def node.setChild (n : node) (k : Int) (v : Option node) : node :=
  .mk n.char (mapSet n.nodes k v) n.isEnd

/-- The assignment `n.end = e`. -/
def node.setEnd (n : node) (e : Bool) : node :=
  .mk n.char n.nodes e

/-- The method `next`: `n.nodes[r%size]`. -/
def node.next (n : node) (r size : Int) : Option node :=
  mapGet n.nodes (Int.tmod r size)

/-- The node at the end of a key path, when every key on it leads to a node. -/
def nodeAt : node → List Int → Option node
  | n, [] => some n
  | n, k :: ks =>
    match mapGet n.nodes k with
    | none => none
    | some c => nodeAt c ks

/-- The tree after the node at the end of a key path is replaced by its image
under `f`: an assignment through a pointer to that node. -/
def modifyAt (f : node → node) : node → List Int → node
  | n, [] => f n
  | n, k :: ks =>
    match mapGet n.nodes k with
    | none => n
    | some c => n.setChild k (some (modifyAt f c ks))

/-- A non-nil `*node`: the key path from the root and the node it points to. -/
structure ref where
  path : List Int
  nd : node

/-- The method `next` on a pointer. -/
def ref.next (r : ref) (c size : Int) : Option ref :=
  match r.nd.next c size with
  | none => none
  | some n => some ⟨r.path ++ [Int.tmod c size], n⟩

/-! ## The trie -/

/-- The struct `Trie`; `root = none` is the nil root of a trie before `Init`. -/
structure Trie where
  root : Option node
  words : Int
  size : Int

/-- The zero value `new(Trie)`. -/
def Trie.new : Trie := ⟨none, 0, 0⟩

/-- The method `Init`: panics for `size < 1`, otherwise installs a root without
children and the size; `words` is not assigned. -/
def Trie.Init (t : Trie) (size : Int) : Option Trie :=
  if size < 1 then none
  else some { t with root := some (.mk 0 [] false), size := size }

/-- The loop of `Insert` from the node `r` on, over the remaining iterations
`(i, c)` of `range s`, with `len = len(s)` and the current value of `t.words`.
The result is `r` after the loop, holding the subtree the loop descended into,
and the final `t.words`. -/
def insertLoop (size : Int) (len : Nat) : List (Nat × Int) → node → Int → node × Int
  | [], r, words => (r, words)
  | (i, c) :: rest, r, words =>
    match r.next c size with
    | none =>
      -- n = &node{c, make(...), end, r}; r.nodes[c%t.size] = n; if end { t.words++ }
      (r.setChild (Int.tmod c size)
          (some (insertLoop size len rest (.mk c [] (decide (i + 1 = len)))
            (if i + 1 = len then words + 1 else words)).1),
        (insertLoop size len rest (.mk c [] (decide (i + 1 = len)))
            (if i + 1 = len then words + 1 else words)).2)
    | some n =>
      if decide (i + 1 = len) && !n.isEnd then
        -- n.end = true; t.words++
        (r.setChild (Int.tmod c size) (some (insertLoop size len rest (n.setEnd true) (words + 1)).1),
          (insertLoop size len rest (n.setEnd true) (words + 1)).2)
      else
        (r.setChild (Int.tmod c size) (some (insertLoop size len rest n words).1),
          (insertLoop size len rest n words).2)

/-- The method `Insert`. With no iteration (the empty string) nothing is read;
otherwise the first iteration dereferences the root and divides by the size. -/
def Trie.Insert (t : Trie) (s : GoString) : Option Trie :=
  match rangeString s with
  | [] => some t
  | cs =>
    match t.root with
    | none => none
    | some r =>
      if t.size = 0 then none
      else some ⟨some (insertLoop t.size s.length cs r t.words).1,
        (insertLoop t.size s.length cs r t.words).2, t.size⟩

/-- The method `start`: `t.root.nodes[rune(s[0]) % t.size]`, as a pointer. -/
def Trie.start (t : Trie) (s : GoString) : Option (Option ref) :=
  match s with
  | [] => none
  | b :: _ =>
    match t.root with
    | none => none
    | some r => if t.size = 0 then none else some (ref.next ⟨[], r⟩ (b : Int) t.size)

/-- The loop of `traverse` over the remaining iterations of `range s`; the
result is the returned pointer, `none` for a panic on `s[i+1]` (or on
`r%size` with `size = 0`). -/
def traverseLoop (s : GoString) (size : Int) : List (Nat × Int) → Option ref → Option (Option ref)
  | [], n => some n
  | (i, c) :: rest, n =>
    match n with
    | none => some none
    | some r =>
      if r.nd.char ≠ c then some (some r)
      else if i + 1 ≠ s.length then
        match s.get? (i + 1) with
        | none => none
        | some b => if size = 0 then none else traverseLoop s size rest (r.next (b : Int) size)
      else traverseLoop s size rest (some r)

/-- The function `traverse`. -/
def traverse (n : Option ref) (s : GoString) (size : Int) : Option (Option ref) :=
  traverseLoop s size (rangeString s) n

/-- The method `Has`. -/
def Trie.Has (t : Trie) (s : GoString) : Option Bool :=
  match t.start s with
  | none => none
  | some n0 =>
    match traverse n0 s t.size with
    | none => none
    | some none => some false
    | some (some r) => some r.nd.isEnd

/-- The loop `for n != nil` of `Delete`, `n` being the node at the key path
whose reverse is the second argument; the result is the root afterwards. The
path gets shorter with every iteration, which is why the loop ends. -/
def pruneLoop : node → List Int → Option node
  | root, [] =>
    match nodeAt root [] with
    | none => none
    | some n =>
      if n.nodes.length = 0 then
        -- n.parent is nil: n = n.parent; n.end
        none
      else some (modifyAt (fun m => m.setEnd false) root [])
  | root, k :: parentRev =>
    match nodeAt root (k :: parentRev).reverse with
    | none => none
    | some n =>
      if n.nodes.length = 0 then
        -- n.parent.nodes[n.char] = nil; n = n.parent
        match nodeAt (modifyAt (fun p => p.setChild n.char none) root parentRev.reverse)
            parentRev.reverse with
        | none => none
        | some p =>
          if p.isEnd then some (modifyAt (fun p => p.setChild n.char none) root parentRev.reverse)
          else pruneLoop (modifyAt (fun p => p.setChild n.char none) root parentRev.reverse) parentRev
      else some (modifyAt (fun m => m.setEnd false) root (k :: parentRev).reverse)

/-- The method `Delete`: the trie afterwards and the returned boolean. -/
def Trie.Delete (t : Trie) (s : GoString) : Option (Trie × Bool) :=
  match t.start s with
  | none => none
  | some n0 =>
    match traverse n0 s t.size with
    | none => none
    | some none => some (t, false)
    | some (some r) =>
      if !r.nd.isEnd then some (t, false)
      else
        match t.root with
        | none => none
        | some root =>
          match pruneLoop root r.path.reverse with
          | none => none
          | some root1 => some (⟨some root1, t.words - 1, t.size⟩, true)

mutual
/-- The function `match` on a non-nil node. -/
def matchNode : node → GoString → List GoString
  | .mk _ m e, s => (if e then [s] else []) ++ matchNodes m s
/-- The loop `for _, c := range n.nodes` of `match`. -/
def matchNodes : nodeMap → GoString → List GoString
  | [], _ => []
  | (_, none) :: rest, s => matchNodes rest s
  | (_, some c) :: rest, s => matchNode c (s ++ runeString c.char) ++ matchNodes rest s
end

/-- The function `match`. -/
def matchPtr (n : Option ref) (s : GoString) : List GoString :=
  match n with
  | none => []
  | some r => matchNode r.nd s

/-- The method `StartsWith`. -/
def Trie.StartsWith (t : Trie) (s : GoString) : Option (List GoString) :=
  match t.start s with
  | none => none
  | some n0 =>
    match traverse n0 s t.size with
    | none => none
    | some n => some (matchPtr n s)

/-- The method `Clear`: `t.Init(t.size)` and `t.words = 0`. -/
def Trie.Clear (t : Trie) : Option Trie :=
  match t.Init t.size with
  | none => none
  | some t1 => some { t1 with words := 0 }

/-- The method `Len`. -/
def Trie.Len (t : Trie) : Int := t.words

/-! ## Sequences of calls -/

/-- A call that changes the trie. -/
inductive Op where
  | insert (w : GoString)
  | delete (w : GoString)
  | clear

/-- The trie after one call; the boolean of `Delete` is dropped. -/
def Trie.step (t : Trie) : Op → Option Trie
  | .insert w => t.Insert w
  | .delete w =>
    match t.Delete w with
    | none => none
    | some p => some p.1
  | .clear => t.Clear

/-- The trie after a sequence of calls, `none` when one of them panics. -/
def run : Trie → List Op → Option Trie
  | t, [] => some t
  | t, op :: ops =>
    match t.step op with
    | none => none
    | some t1 => run t1 ops

/-- The words that are stored after one more call, by the meaning of the calls:
`Insert` adds its word, `Delete` removes it, `Clear` removes every word. -/
def storedStep (S : List GoString) : Op → List GoString
  | .insert w => if w ∈ S then S else w :: S
  | .delete w => S.filter (fun v => decide (v ≠ w))
  | .clear => []

/-- The words that are stored after a sequence of calls (inserted and not
deleted or cleared since), starting from the stored words `S`. -/
def stored : List GoString → List Op → List GoString
  | S, [] => S
  | S, op :: ops => stored (storedStep S op) ops

/-! ## Conditions on words -/

/-- Every byte of the string is an ASCII character. -/
abbrev ascii (s : GoString) : Prop := ∀ b ∈ s, b < 128

/-- A non-empty ASCII word whose symbols are all smaller than the alphabet size. -/
abbrev Word (size : Int) (s : GoString) : Prop :=
  s ≠ [] ∧ ∀ b ∈ s, b < 128 ∧ (b : Int) < size

/-- The call is made on a non-empty ASCII word with symbols below the size. -/
abbrev Op.ok (size : Int) : Op → Prop
  | .insert w => Word size w
  | .delete w => Word size w
  | .clear => True

instance Op.decidableOk (size : Int) : DecidablePred (Op.ok size) := fun op =>
  match op with
  | .insert w => inferInstanceAs (Decidable (Word size w))
  | .delete w => inferInstanceAs (Decidable (Word size w))
  | .clear => inferInstanceAs (Decidable True)

/-- The trie has been initialised: it has a root and a positive alphabet size. -/
abbrev Trie.initialised (t : Trie) : Prop := t.root.isSome = true ∧ 1 ≤ t.size

/-- The bucket `symbol mod size` of a symbol. -/
def bucket (size : Int) (b : Nat) : Int := Int.tmod (b : Int) size

/-- Distinct symbols of the list fall into distinct buckets. -/
abbrev bucketsDistinct (size : Int) (syms : List Nat) : Prop :=
  ∀ a ∈ syms, ∀ b ∈ syms, bucket size a = bucket size b → a = b

/-- The symbols that occur in the words of a list. -/
abbrev symbolsOf (L : List GoString) : List Nat := L.foldr (fun v acc => v ++ acc) []

/-! ## Notions used in the proofs -/

/-- The keys under which the symbols of an ASCII word are looked up. -/
def keys (size : Int) (w : GoString) : List Int := w.map (bucket size)

/-- The key path leads to a node that is marked as the end of a word. -/
def terminal (r : node) (ks : List Int) : Bool :=
  match nodeAt r ks with
  | none => false
  | some n => n.isEnd

mutual
/-- The number of nodes marked `end` in the tree of a node, itself included. -/
def countEnd : node → Nat
  | .mk _ m e => (if e then 1 else 0) + countEnds m
/-- The number of nodes marked `end` in the trees of the nodes of a map. -/
def countEnds : nodeMap → Nat
  | [] => 0
  | (_, none) :: rest => countEnds rest
  | (_, some c) :: rest => countEnd c + countEnds rest
end

/-- The count of `countEnd` for a pointer that may be nil. -/
def countPtr : Option node → Nat
  | none => 0
  | some c => countEnd c

/-- The shape of the trees that `Insert` builds from symbols satisfying `sym`:
the keys of a map are distinct, and a child stored under the key `k` carries a
symbol satisfying `sym` whose bucket is `k`. -/
inductive Inv (size : Int) (sym : Int → Prop) : node → Prop
  | mk (c : Int) (m : nodeMap) (e : Bool) :
      (m.map Prod.fst).Nodup →
      (∀ k n, (k, some n) ∈ m → sym n.char ∧ Int.tmod n.char size = k) →
      (∀ k n, (k, some n) ∈ m → Inv size sym n) →
      Inv size sym (.mk c m e)

/-- The loop of `Insert` for an ASCII string, over its symbols: the last
iteration is the one with no symbol left. -/
def insertWord (size : Int) : List Int → node → Int → node × Int
  | [], r, words => (r, words)
  | c :: rest, r, words =>
    match r.next c size with
    | none =>
      (r.setChild (Int.tmod c size)
          (some (insertWord size rest (.mk c [] rest.isEmpty)
            (if rest.isEmpty then words + 1 else words)).1),
        (insertWord size rest (.mk c [] rest.isEmpty)
            (if rest.isEmpty then words + 1 else words)).2)
    | some n =>
      if rest.isEmpty && !n.isEnd then
        (r.setChild (Int.tmod c size) (some (insertWord size rest (n.setEnd true) (words + 1)).1),
          (insertWord size rest (n.setEnd true) (words + 1)).2)
      else
        (r.setChild (Int.tmod c size) (some (insertWord size rest n words).1),
          (insertWord size rest n words).2)

/-- The node `n` that one iteration of the loop of `Insert` continues with, and
`t.words` after the iteration: `last` is the value of `end`. -/
def childFor (size : Int) (c : Int) (last : Bool) (r : node) (words : Int) : node × Int :=
  match r.next c size with
  | none => (.mk c [] last, if last then words + 1 else words)
  | some n => if last && !n.isEnd then (n.setEnd true, words + 1) else (n, words)

/-- The loop of `traverse` for an ASCII string, over its symbols. -/
def walkWord (size : Int) : List Int → Option ref → Option ref
  | [], n => n
  | _ :: _, none => none
  | c :: rest, some r =>
    if r.nd.char ≠ c then some r
    else
      match rest with
      | [] => some r
      | d :: _ => walkWord size rest (r.next d size)

/-- The symbols of ASCII words whose symbols are smaller than the alphabet size. -/
def symBelow (size : Int) (c : Int) : Prop := 0 ≤ c ∧ c < size ∧ c < 128

/-- The trie stores exactly the words of the list `S`, all of them non-empty
ASCII words with symbols below `size`: its tree has the shape `Insert` builds,
the key paths that end in a marked node are those of the words of `S`, and the
counter is the number of these words and of the marked nodes. -/
def Refines (size : Int) (S : List GoString) (t : Trie) : Prop :=
  t.size = size ∧ S.Nodup ∧ (∀ w ∈ S, Word size w) ∧ t.words = S.length ∧
  ∃ r, t.root = some r ∧ Inv size (symBelow size) r ∧
    (∀ ks, terminal r ks = true ↔ ∃ w ∈ S, ks = keys size w) ∧
    t.words = countEnd r

/-- The pointer is to a node of the tree below `root`, which is not the root. -/
def ref.valid (root : node) (r : ref) : Prop :=
  r.path ≠ [] ∧ nodeAt root r.path = some r.nd

/-! ## Calls that may fail -/

/-- The trie as a call of `Init` leaves it, whether the call returns or panics:
the panic is raised by the first statement, before the two assignments. -/
def Trie.afterInit (t : Trie) (size : Int) : Trie :=
  if size < 1 then t else { t with root := some (.mk 0 [] false), size := size }

/-- A call of one of the methods that take a word. -/
inductive Call where
  | insert (w : GoString)
  | delete (w : GoString)
  | has (w : GoString)
  | startsWith (w : GoString)

/-- The word a call is made with. -/
def Call.word : Call → GoString
  | .insert w => w
  | .delete w => w
  | .has w => w
  | .startsWith w => w

/-- The trie after a call, `none` when the call panics; what `Delete`, `Has`
and `StartsWith` return is dropped. -/
def Trie.call (t : Trie) : Call → Option Trie
  | .insert w => t.Insert w
  | .delete w =>
    match t.Delete w with
    | none => none
    | some p => some p.1
  | .has w =>
    match t.Has w with
    | none => none
    | some _ => some t
  | .startsWith w =>
    match t.StartsWith w with
    | none => none
    | some _ => some t

/-- The trie after a sequence of calls, `none` when one of them panics. -/
def runCalls : Trie → List Call → Option Trie
  | t, [] => some t
  | t, c :: cs =>
    match t.call c with
    | none => none
    | some t1 => runCalls t1 cs

/-! ## Maps -/

theorem node_eta (n : node) : node.mk n.char n.nodes n.isEnd = n := by
  cases n; rfl

@[simp] theorem char_mk (c : Int) (m : nodeMap) (e : Bool) : (node.mk c m e).char = c := rfl

@[simp] theorem nodes_mk (c : Int) (m : nodeMap) (e : Bool) : (node.mk c m e).nodes = m := rfl

@[simp] theorem isEnd_mk (c : Int) (m : nodeMap) (e : Bool) : (node.mk c m e).isEnd = e := rfl

@[simp] theorem setChild_nodes (n : node) (k : Int) (v : Option node) :
    (n.setChild k v).nodes = mapSet n.nodes k v := rfl

@[simp] theorem setChild_isEnd (n : node) (k : Int) (v : Option node) :
    (n.setChild k v).isEnd = n.isEnd := rfl

@[simp] theorem setChild_char (n : node) (k : Int) (v : Option node) :
    (n.setChild k v).char = n.char := rfl

@[simp] theorem setEnd_nodes (n : node) (e : Bool) : (n.setEnd e).nodes = n.nodes := rfl

@[simp] theorem setEnd_isEnd (n : node) (e : Bool) : (n.setEnd e).isEnd = e := rfl

@[simp] theorem setEnd_char (n : node) (e : Bool) : (n.setEnd e).char = n.char := rfl

theorem mapGet_mapSet_same (m : nodeMap) (k : Int) (v : Option node) :
    mapGet (mapSet m k v) k = v := by
  induction m with
  | nil => simp [mapSet, mapGet]
  | cons p rest ih =>
    obtain ⟨k', v'⟩ := p
    by_cases h : k' = k
    · simp [mapSet, mapGet, h]
    · simp [mapSet, mapGet, h, ih]

theorem mapGet_mapSet_ne (m : nodeMap) (k k' : Int) (v : Option node) (h : k' ≠ k) :
    mapGet (mapSet m k v) k' = mapGet m k' := by
  induction m with
  | nil => simp [mapSet, mapGet, Ne.symm h]
  | cons p rest ih =>
    obtain ⟨k1, v1⟩ := p
    by_cases h1 : k1 = k
    · subst h1
      simp [mapSet, mapGet, Ne.symm h]
    · by_cases h2 : k1 = k'
      · subst h2
        simp [mapSet, mapGet, h1]
      · simp [mapSet, mapGet, h1, h2, ih]

theorem mapSet_length_pos (m : nodeMap) (k : Int) (v : Option node) :
    (mapSet m k v).length ≠ 0 := by
  cases m with
  | nil => simp [mapSet]
  | cons p rest =>
    obtain ⟨k1, v1⟩ := p
    by_cases h1 : k1 = k <;> simp [mapSet, h1]

theorem mapSet_mapSet (m : nodeMap) (k : Int) (v v' : Option node) :
    mapSet (mapSet m k v) k v' = mapSet m k v' := by
  induction m with
  | nil => simp [mapSet]
  | cons p rest ih =>
    obtain ⟨k1, v1⟩ := p
    by_cases h1 : k1 = k
    · simp [mapSet, h1]
    · simp [mapSet, h1, ih]

theorem mapSet_of_mapGet (m : nodeMap) (k : Int) (c : node) (h : mapGet m k = some c) :
    mapSet m k (some c) = m := by
  induction m with
  | nil => simp [mapGet] at h
  | cons p rest ih =>
    obtain ⟨k1, v1⟩ := p
    by_cases h1 : k1 = k
    · simp [mapGet, h1] at h
      simp [mapSet, h1, h]
    · simp [mapGet, h1] at h
      simp [mapSet, h1, ih h]

theorem mapGet_mem (m : nodeMap) (k : Int) (c : node) (h : mapGet m k = some c) :
    (k, some c) ∈ m := by
  induction m with
  | nil => simp [mapGet] at h
  | cons p rest ih =>
    obtain ⟨k1, v1⟩ := p
    by_cases h1 : k1 = k
    · simp [mapGet, h1] at h
      simp [h1, h]
    · simp [mapGet, h1] at h
      exact List.mem_cons_of_mem _ (ih h)

theorem mem_mapGet (m : nodeMap) (k : Int) (c : node) (hn : (m.map Prod.fst).Nodup)
    (h : (k, some c) ∈ m) : mapGet m k = some c := by
  induction m with
  | nil => simp at h
  | cons p rest ih =>
    obtain ⟨k1, v1⟩ := p
    simp only [List.map_cons, List.nodup_cons] at hn
    rcases List.mem_cons.1 h with h | h
    · cases h
      simp [mapGet]
    · have hk : k1 ≠ k := by
        rintro rfl
        exact hn.1 (List.mem_map.2 ⟨_, h, rfl⟩)
      simp [mapGet, hk, ih hn.2 h]

theorem mem_keys_mapSet (m : nodeMap) (k k' : Int) (v : Option node)
    (h : k' ∈ (mapSet m k v).map Prod.fst) : k' = k ∨ k' ∈ m.map Prod.fst := by
  induction m with
  | nil => simp [mapSet] at h; exact Or.inl h
  | cons p rest ih =>
    obtain ⟨k1, v1⟩ := p
    by_cases h1 : k1 = k
    · simp [mapSet, h1] at h
      rcases h with h | h
      · exact Or.inl h
      · right
        simp only [List.map_cons, List.mem_cons]
        right
        simpa using h
    · simp only [mapSet, h1, if_false, List.map_cons, List.mem_cons] at h
      rcases h with h | h
      · right; simp [h]
      · rcases ih h with h | h
        · exact Or.inl h
        · right
          simp only [List.map_cons, List.mem_cons]
          exact Or.inr h

theorem mapSet_keys_nodup (m : nodeMap) (k : Int) (v : Option node)
    (hn : (m.map Prod.fst).Nodup) : ((mapSet m k v).map Prod.fst).Nodup := by
  induction m with
  | nil => simp [mapSet]
  | cons p rest ih =>
    obtain ⟨k1, v1⟩ := p
    simp only [List.map_cons, List.nodup_cons] at hn
    by_cases h1 : k1 = k
    · subst h1
      simp only [mapSet, if_true, List.map_cons, List.nodup_cons]
      exact hn
    · simp only [mapSet, h1, if_false, List.map_cons, List.nodup_cons]
      refine ⟨fun hmem => ?_, ih hn.2⟩
      rcases mem_keys_mapSet rest k k1 v hmem with h | h
      · exact h1 h
      · exact hn.1 h

theorem mem_mapSet (m : nodeMap) (k k' : Int) (v : Option node) (n : node)
    (h : (k', some n) ∈ mapSet m k v) : (k', some n) ∈ m ∨ (k' = k ∧ v = some n) := by
  induction m with
  | nil =>
    simp [mapSet] at h
    exact Or.inr ⟨h.1, h.2.symm⟩
  | cons p rest ih =>
    obtain ⟨k1, v1⟩ := p
    by_cases h1 : k1 = k
    · simp only [mapSet, h1, if_true, List.mem_cons] at h
      rcases h with h | h
      · cases h
        exact Or.inr ⟨rfl, rfl⟩
      · exact Or.inl (List.mem_cons_of_mem _ h)
    · simp only [mapSet, h1, if_false, List.mem_cons] at h
      rcases h with h | h
      · exact Or.inl (by rw [h]; exact List.mem_cons_self _ _)
      · rcases ih h with h | h
        · exact Or.inl (List.mem_cons_of_mem _ h)
        · exact Or.inr h

theorem countEnds_cons (k : Int) (v : Option node) (rest : nodeMap) :
    countEnds ((k, v) :: rest) = countPtr v + countEnds rest := by
  cases v <;> simp [countEnds, countPtr]

theorem countEnds_mapSet (m : nodeMap) (k : Int) (v : Option node) :
    (countEnds (mapSet m k v) : Int) = countEnds m - countPtr (mapGet m k) + countPtr v := by
  induction m with
  | nil => simp [mapSet, mapGet, countEnds_cons, countEnds, countPtr]
  | cons p rest ih =>
    obtain ⟨k1, v1⟩ := p
    by_cases h1 : k1 = k
    · simp only [mapSet, mapGet, h1, if_true, countEnds_cons]
      push_cast
      ring
    · simp only [mapSet, mapGet, h1, if_false, countEnds_cons]
      push_cast
      rw [ih]
      ring

/-! ## Key paths -/

theorem nodeAt_append (r : node) (p q : List Int) :
    nodeAt r (p ++ q) = (nodeAt r p).bind (fun n => nodeAt n q) := by
  induction p generalizing r with
  | nil => simp [nodeAt]
  | cons k ks ih =>
    simp only [List.cons_append, nodeAt]
    cases h : mapGet r.nodes k with
    | none => simp
    | some c => simp [ih]

theorem nodeAt_modifyAt_append (f : node → node) (r n : node) (p u : List Int)
    (h : nodeAt r p = some n) : nodeAt (modifyAt f r p) (p ++ u) = nodeAt (f n) u := by
  induction p generalizing r with
  | nil =>
    simp [nodeAt] at h
    simp [modifyAt, h]
  | cons k ks ih =>
    simp only [nodeAt] at h
    cases hc : mapGet r.nodes k with
    | none => simp [hc] at h
    | some c =>
      simp only [hc] at h
      simp only [modifyAt, hc, List.cons_append, nodeAt, setChild_nodes, mapGet_mapSet_same]
      exact ih c h

theorem nodeAt_modifyAt_same (f : node → node) (r n : node) (p : List Int)
    (h : nodeAt r p = some n) : nodeAt (modifyAt f r p) p = some (f n) := by
  have := nodeAt_modifyAt_append f r n p [] h
  simpa [nodeAt] using this

theorem modifyAt_isEnd (f : node → node) (r : node) (k : Int) (ks : List Int) :
    (modifyAt f r (k :: ks)).isEnd = r.isEnd := by
  simp only [modifyAt]
  cases mapGet r.nodes k <;> simp

theorem terminal_modifyAt_other (f : node → node) (r : node) (p q : List Int)
    (h : ¬ p <+: q) : terminal (modifyAt f r p) q = terminal r q := by
  induction p generalizing r q with
  | nil => exact absurd (List.nil_prefix) h
  | cons k ks ih =>
    cases q with
    | nil => simp [terminal, nodeAt, modifyAt_isEnd]
    | cons k' qs =>
      simp only [modifyAt]
      cases hc : mapGet r.nodes k with
      | none => rfl
      | some c =>
        by_cases hk : k' = k
        · subst hk
          have h' : ¬ ks <+: qs := fun hp => h ((List.prefix_cons_inj k').2 hp)
          have := ih c qs h'
          simpa [terminal, nodeAt, mapGet_mapSet_same, hc] using this
        · simp [terminal, nodeAt, mapGet_mapSet_ne _ _ _ _ hk]

theorem modifyAt_id (f : node → node) (r n : node) (p : List Int)
    (h : nodeAt r p = some n) (hf : f n = n) : modifyAt f r p = r := by
  induction p generalizing r with
  | nil =>
    simp [nodeAt] at h
    simp [modifyAt, h, hf]
  | cons k ks ih =>
    simp only [nodeAt] at h
    cases hc : mapGet r.nodes k with
    | none => simp [hc] at h
    | some c =>
      simp only [hc] at h
      simp only [modifyAt, hc, ih c h, node.setChild, mapSet_of_mapGet _ _ _ hc, node_eta]

theorem countEnd_eq (n : node) :
    countEnd n = (if n.isEnd then 1 else 0) + countEnds n.nodes := by
  cases n; simp [countEnd, node.isEnd, node.nodes]

theorem countEnd_modifyAt (f : node → node) (r n : node) (p : List Int)
    (h : nodeAt r p = some n) :
    (countEnd (modifyAt f r p) : Int) = countEnd r - countEnd n + countEnd (f n) := by
  induction p generalizing r with
  | nil =>
    simp [nodeAt] at h
    simp [modifyAt, h]
  | cons k ks ih =>
    simp only [nodeAt] at h
    cases hc : mapGet r.nodes k with
    | none => simp [hc] at h
    | some c =>
      simp only [hc] at h
      simp only [modifyAt, hc]
      rw [countEnd_eq (r.setChild _ _), countEnd_eq r]
      simp only [setChild_nodes, setChild_isEnd]
      push_cast
      rw [countEnds_mapSet, hc]
      simp only [countPtr]
      rw [ih c h]
      ring

/-! ## Strings -/

theorem rangeFrom_nil (fuel i : Nat) : rangeFrom fuel i [] = [] := by
  cases fuel <;> rfl

theorem rangeFrom_offsets (fuel i : Nat) (s : GoString) :
    ∀ p ∈ rangeFrom fuel i s, p.1 < i + s.length := by
  induction fuel generalizing i s with
  | zero => intro p hp; simp [rangeFrom] at hp
  | succ fuel ih =>
    cases s with
    | nil => intro p hp; simp [rangeFrom] at hp
    | cons b rest =>
      intro p hp
      simp only [rangeFrom, List.mem_cons] at hp
      rcases hp with hp | hp
      · subst hp
        simp
      · by_cases hw : (decodeRune (b :: rest)).2 ≤ (b :: rest).length
        · have := ih _ _ p hp
          rw [List.length_drop] at this
          omega
        · rw [List.drop_eq_nil_of_le (by omega), rangeFrom_nil] at hp
          simp at hp

theorem rangeString_offsets (s : GoString) : ∀ p ∈ rangeString s, p.1 < s.length := by
  intro p hp
  have := rangeFrom_offsets s.length 0 s p hp
  omega

theorem rangeString_cons (b : Nat) (rest : GoString) :
    ∃ c cs, rangeString (b :: rest) = (0, c) :: cs := by
  exact ⟨_, _, rfl⟩

/-! ## Pointers -/

theorem next_valid (root : node) (r r' : ref) (c size : Int) (hv : r.valid root)
    (h : r.next c size = some r') : r'.valid root := by
  unfold ref.next at h
  cases hc : r.nd.next c size with
  | none => simp [hc] at h
  | some n =>
    simp only [hc, Option.some.injEq] at h
    subst h
    refine ⟨by simp, ?_⟩
    simp only [nodeAt_append, hv.2, Option.some_bind, nodeAt]
    unfold node.next at hc
    simp [hc]

theorem start_valid (t : Trie) (root : node) (b : Nat) (rest : GoString)
    (hroot : t.root = some root) (hsize : t.size ≠ 0) :
    ∃ n0, t.start (b :: rest) = some n0 ∧ ∀ r, n0 = some r → r.valid root := by
  refine ⟨ref.next ⟨[], root⟩ (b : Int) t.size, by simp [Trie.start, hroot, hsize], ?_⟩
  intro r hr
  unfold ref.next at hr
  cases hc : (ref.mk [] root).nd.next (b : Int) t.size with
  | none => simp [hc] at hr
  | some n =>
    simp only [hc, Option.some.injEq] at hr
    subst hr
    refine ⟨by simp, ?_⟩
    unfold node.next at hc
    simp only [List.nil_append, nodeAt]
    simp at hc
    simp [hc]

theorem traverseLoop_valid (root : node) (s : GoString) (size : Int) (hsize : size ≠ 0)
    (cs : List (Nat × Int)) (hcs : ∀ p ∈ cs, p.1 < s.length) (n : Option ref)
    (hn : ∀ r, n = some r → r.valid root) :
    ∃ res, traverseLoop s size cs n = some res ∧ ∀ r, res = some r → r.valid root := by
  induction cs generalizing n with
  | nil => exact ⟨n, rfl, hn⟩
  | cons p rest ih =>
    obtain ⟨i, c⟩ := p
    have hrest : ∀ p ∈ rest, p.1 < s.length := fun p hp => hcs p (List.mem_cons_of_mem _ hp)
    cases n with
    | none => exact ⟨none, rfl, by simp⟩
    | some r =>
      by_cases hch : r.nd.char ≠ c
      · exact ⟨some r, by simp [traverseLoop, hch], hn⟩
      · by_cases hi : i + 1 ≠ s.length
        · have hlt : i + 1 < s.length := by
            have := hcs (i, c) (List.mem_cons_self _ _)
            simp at this
            omega
          obtain ⟨res, hres, hval⟩ := ih hrest (r.next ((s.get ⟨i + 1, hlt⟩ : Nat) : Int) size)
            (fun r' hr' => next_valid root r r' _ size (hn r rfl) hr')
          refine ⟨res, ?_, hval⟩
          simp only [traverseLoop, hch, if_false]
          rw [if_pos hi]
          simp only [List.get?_eq_get hlt, hsize, if_false]
          exact hres
        · obtain ⟨res, hres, hval⟩ := ih hrest (some r) hn
          refine ⟨res, ?_, hval⟩
          simp only [traverseLoop, hch, if_false]
          rw [if_neg hi]
          exact hres

theorem traverse_valid (t : Trie) (root : node) (s : GoString) (hroot : t.root = some root)
    (hsize : t.size ≠ 0) (hs : s ≠ []) :
    ∃ n0 res, t.start s = some n0 ∧ traverse n0 s t.size = some res ∧
      ∀ r, res = some r → r.valid root := by
  cases s with
  | nil => exact absurd rfl hs
  | cons b rest =>
    obtain ⟨n0, h0, hv0⟩ := start_valid t root b rest hroot hsize
    obtain ⟨res, hres, hval⟩ := traverseLoop_valid root (b :: rest) t.size hsize
      (rangeString (b :: rest)) (rangeString_offsets _) n0 hv0
    exact ⟨n0, res, h0, hres, hval⟩

/-! ## The loop of Delete -/

theorem setEnd_self (n : node) (e : Bool) (h : n.isEnd = e) : n.setEnd e = n := by
  cases n
  simp at h
  simp [node.setEnd, h]

theorem pruneLoop_inner (root n : node) (p : List Int) (h : nodeAt root p = some n)
    (hl : n.nodes.length ≠ 0) :
    pruneLoop root p.reverse = some (modifyAt (fun m => m.setEnd false) root p) := by
  rcases List.eq_nil_or_concat p with hp | ⟨p0, k, hp⟩
  · subst hp
    simp only [nodeAt, Option.some.injEq] at h
    subst h
    simp [pruneLoop, nodeAt, hl]
  · rw [List.concat_eq_append] at hp
    subst hp
    have h' : nodeAt root (k :: p0.reverse).reverse = some n := by simpa using h
    rw [List.reverse_append, List.reverse_singleton, List.singleton_append, pruneLoop, h']
    simp [hl]

theorem pruneLoop_leaf (root n : node) (p0 : List Int) (k : Int)
    (h : nodeAt root (p0 ++ [k]) = some n) (hl : n.nodes.length = 0) :
    pruneLoop root (p0 ++ [k]).reverse =
      some (modifyAt (fun p => p.setChild n.char none) root p0) := by
  have hp : ∃ pn, nodeAt root p0 = some pn := by
    rw [nodeAt_append] at h
    cases hpn : nodeAt root p0 with
    | none => simp [hpn] at h
    | some pn => exact ⟨pn, rfl⟩
  obtain ⟨pn, hpn⟩ := hp
  have hmod := nodeAt_modifyAt_same (fun p => p.setChild n.char none) root pn p0 hpn
  have h' : nodeAt root (k :: p0.reverse).reverse = some n := by simpa using h
  rw [List.reverse_append, List.reverse_singleton, List.singleton_append, pruneLoop, h']
  simp only [hl, if_true, List.reverse_reverse, hmod]
  by_cases he : pn.isEnd = true
  · simp [he]
  · have hid : modifyAt (fun m => m.setEnd false)
        (modifyAt (fun p => p.setChild n.char none) root p0) p0 =
        modifyAt (fun p => p.setChild n.char none) root p0 := by
      apply modifyAt_id _ _ _ _ hmod
      apply setEnd_self
      simpa using he
    rw [pruneLoop_inner _ _ p0 hmod (by simpa using mapSet_length_pos _ _ _), hid]
    simp

theorem Delete_eq (t : Trie) (root : node) (s : GoString) (n0 : Option ref) (r : ref)
    (hroot : t.root = some root) (h0 : t.start s = some n0)
    (htr : traverse n0 s t.size = some (some r)) (hv : r.valid root)
    (he : r.nd.isEnd = true) :
    t.Delete s = some (⟨some (if r.nd.nodes.length = 0
        then modifyAt (fun p => p.setChild r.nd.char none) root r.path.dropLast
        else modifyAt (fun m => m.setEnd false) root r.path), t.words - 1, t.size⟩, true) := by
  simp only [Trie.Delete, h0, htr, he, hroot, Bool.not_true, Bool.false_eq_true, if_false]
  by_cases hl : r.nd.nodes.length = 0
  · rcases List.eq_nil_or_concat r.path with hp | ⟨p0, k, hp⟩
    · exact absurd hp hv.1
    · rw [List.concat_eq_append] at hp
      have h := hv.2
      rw [hp] at h
      rw [hp, pruneLoop_leaf root r.nd p0 k h hl]
      simp [hl]
  · rw [pruneLoop_inner root r.nd r.path hv.2 hl]
    simp [hl]

/-! ## The loop of Insert, in any state -/

theorem insertLoop_isEnd (size : Int) (len : Nat) (cs : List (Nat × Int)) (r : node)
    (words : Int) : (insertLoop size len cs r words).1.isEnd = r.isEnd := by
  cases cs with
  | nil => rfl
  | cons p rest =>
    obtain ⟨i, c⟩ := p
    simp only [insertLoop]
    cases r.next c size with
    | none => rfl
    | some n =>
      simp only
      split <;> rfl

theorem insertLoop_cons_form (size : Int) (len i : Nat) (c : Int) (rest : List (Nat × Int))
    (r : node) (words : Int) :
    ∃ n0 w0, insertLoop size len ((i, c) :: rest) r words =
        (r.setChild (Int.tmod c size) (some (insertLoop size len rest n0 w0).1),
          (insertLoop size len rest n0 w0).2) ∧
      (decide (i + 1 = len) && !n0.isEnd) = false := by
  simp only [insertLoop]
  cases r.next c size with
  | none => exact ⟨_, _, rfl, by simp⟩
  | some n =>
    by_cases hc : (decide (i + 1 = len) && !n.isEnd) = true
    · exact ⟨n.setEnd true, words + 1, by simp only [hc, if_true], by simp⟩
    · exact ⟨n, words, by show (if _ then _ else _) = _; rw [if_neg hc], by simpa using hc⟩

theorem insertLoop_twice (size : Int) (len : Nat) (cs : List (Nat × Int)) (r : node)
    (words words' : Int) :
    insertLoop size len cs (insertLoop size len cs r words).1 words' =
      ((insertLoop size len cs r words).1, words') := by
  induction cs generalizing r words words' with
  | nil => rfl
  | cons p rest ih =>
    obtain ⟨i, c⟩ := p
    have key : ∀ (n0 : node) (w0 : Int), (decide (i + 1 = len) && !n0.isEnd) = false →
        insertLoop size len ((i, c) :: rest)
          (r.setChild (Int.tmod c size) (some (insertLoop size len rest n0 w0).1)) words' =
        (r.setChild (Int.tmod c size) (some (insertLoop size len rest n0 w0).1), words') := by
      intro n0 w0 h0
      have hnext : (r.setChild (Int.tmod c size)
          (some (insertLoop size len rest n0 w0).1)).next c size =
          some (insertLoop size len rest n0 w0).1 := by
        simp [node.next, mapGet_mapSet_same]
      have hcond : (decide (i + 1 = len) && !(insertLoop size len rest n0 w0).1.isEnd) = false := by
        rw [insertLoop_isEnd]
        exact h0
      rw [insertLoop, hnext]
      simp only [hcond, Bool.false_eq_true, if_false, ih]
      simp [node.setChild, mapSet_mapSet]
    obtain ⟨n0, w0, hform, hcond0⟩ := insertLoop_cons_form size len i c rest r words
    rw [hform]
    exact key n0 w0 hcond0

theorem Insert_eq (t : Trie) (r : node) (s : GoString) (hroot : t.root = some r)
    (hsize : t.size ≠ 0) :
    t.Insert s = some ⟨some (insertLoop t.size s.length (rangeString s) r t.words).1,
      (insertLoop t.size s.length (rangeString s) r t.words).2, t.size⟩ := by
  obtain ⟨root, words, size⟩ := t
  simp only at hroot hsize
  subst hroot
  unfold Trie.Insert
  cases hcs : rangeString s with
  | nil => simp [insertLoop]
  | cons p rest => simp [hsize]

/-- C7: on an initialised trie in any state, with any alphabet size and any
word, a second `Insert` of the word leaves `Len()` as the first one left it
(both calls return). -/
theorem Insert_twice_Len (t : Trie) (s : GoString) (h : t.initialised) :
    ∃ t1 t2, t.Insert s = some t1 ∧ t1.Insert s = some t2 ∧ t2.Len = t1.Len := by
  have hsz : t.size ≠ 0 := by
    have := h.2
    omega
  cases hroot : t.root with
  | none =>
    have := h.1
    simp [hroot] at this
  | some r =>
    refine ⟨_, _, Insert_eq t r s hroot hsz, Insert_eq _ _ s rfl hsz, ?_⟩
    simp [Trie.Len, insertLoop_twice]

theorem Insert_twice_Len_witness :
    (Trie.mk (some (.mk 0 [] false)) 0 1).initialised ∧
    ∃ t1 t2, (Trie.mk (some (.mk 0 [] false)) 0 1).Insert (str "ab") = some t1 ∧
      t1.Insert (str "ab") = some t2 ∧ t2.Len = t1.Len :=
  ⟨by decide, Insert_twice_Len _ _ (by decide)⟩

/-! ## Has and Delete, in any state -/

/-- C8: on an initialised trie in any state and for a non-empty word, `Has` and
`Delete` return, `Delete` returns false exactly when `Has` is false before the
call, and a `Delete` that returns false leaves the trie (node graph, word count
and size) as it was. -/
theorem Delete_false_iff_Has_false (t : Trie) (s : GoString) (h : t.initialised)
    (hs : s ≠ []) :
    ∃ b t' d, t.Has s = some b ∧ t.Delete s = some (t', d) ∧
      (d = false ↔ b = false) ∧ (d = false → t' = t) := by
  have hsz : t.size ≠ 0 := by
    have := h.2
    omega
  cases hroot : t.root with
  | none =>
    have := h.1
    simp [hroot] at this
  | some root =>
    obtain ⟨n0, res, h0, htr, hval⟩ := traverse_valid t root s hroot hsz hs
    cases res with
    | none =>
      exact ⟨false, t, false, by simp [Trie.Has, h0, htr], by simp [Trie.Delete, h0, htr],
        by simp, fun _ => rfl⟩
    | some r =>
      by_cases he : r.nd.isEnd = true
      · refine ⟨true, _, true, by simp [Trie.Has, h0, htr, he],
          Delete_eq t root s n0 r hroot h0 htr (hval r rfl) he, by simp, by simp⟩
      · refine ⟨false, t, false, by simp [Trie.Has, h0, htr, he],
          by simp [Trie.Delete, h0, htr, he], by simp, fun _ => rfl⟩

theorem Delete_false_iff_Has_false_witness :
    (Trie.mk (some (.mk 0 [(97, some (.mk 97 [] true))] false)) 1 128).initialised ∧
    str "xyz" ≠ [] ∧
    ∃ b t' d, (Trie.mk (some (.mk 0 [(97, some (.mk 97 [] true))] false)) 1 128).Has (str "xyz")
        = some b ∧
      (Trie.mk (some (.mk 0 [(97, some (.mk 97 [] true))] false)) 1 128).Delete (str "xyz")
        = some (t', d) ∧
      (d = false ↔ b = false) ∧
      (d = false → t' = Trie.mk (some (.mk 0 [(97, some (.mk 97 [] true))] false)) 1 128) :=
  ⟨by decide, by decide, Delete_false_iff_Has_false _ _ (by decide) (by decide)⟩

/-! ## Clear -/

/-- C10: on an initialised trie in any state `Clear` returns, and after it
`Len()` is 0, `Has(w)` is false for every non-empty word `w`, and the alphabet
size is the one the trie had before. -/
theorem Clear_resets (t : Trie) (h : t.initialised) :
    ∃ t', t.Clear = some t' ∧ t'.Len = 0 ∧ t'.size = t.size ∧
      ∀ s : GoString, s ≠ [] → t'.Has s = some false := by
  have hsz : ¬ t.size < 1 := by
    have := h.2
    omega
  have hsz0 : t.size ≠ 0 := by
    have := h.2
    omega
  refine ⟨⟨some (.mk 0 [] false), 0, t.size⟩, by simp [Trie.Clear, Trie.Init, hsz], rfl, rfl, ?_⟩
  intro s hs
  cases s with
  | nil => exact absurd rfl hs
  | cons b rest =>
    obtain ⟨c, cs, hcs⟩ := rangeString_cons b rest
    simp [Trie.Has, Trie.start, hsz0, ref.next, node.next, mapGet, traverse, hcs, traverseLoop]

theorem Clear_resets_witness :
    (Trie.mk (some (.mk 0 [(97, some (.mk 97 [] true))] false)) 1 128).initialised ∧
    ∃ t', (Trie.mk (some (.mk 0 [(97, some (.mk 97 [] true))] false)) 1 128).Clear = some t' ∧
      t'.Len = 0 ∧ t'.size = 128 ∧ ∀ s : GoString, s ≠ [] → t'.Has s = some false :=
  ⟨by decide, Clear_resets _ (by decide)⟩

/-! ## ASCII strings -/

theorem decodeRune_ascii (b : Nat) (rest : GoString) (hb : b < 128) :
    decodeRune (b :: rest) = ((b : Int), 1) := by
  simp [decodeRune, hb]

theorem rangeFrom_ascii (fuel i : Nat) (s : GoString) (ha : ascii s) (hf : s.length ≤ fuel) :
    rangeFrom fuel i s = (List.enumFrom i s).map (fun p => (p.1, (p.2 : Int))) := by
  induction fuel generalizing i s with
  | zero =>
    have : s = [] := List.length_eq_zero.1 (by omega)
    subst this
    rfl
  | succ fuel ih =>
    cases s with
    | nil => rfl
    | cons b rest =>
      have hb : b < 128 := ha b (List.mem_cons_self _ _)
      have hrest : ascii rest := fun x hx => ha x (List.mem_cons_of_mem _ hx)
      simp only [rangeFrom, decodeRune_ascii b rest hb, List.drop_succ_cons, List.drop_zero,
        List.enumFrom_cons, List.map_cons]
      rw [ih (i + 1) rest hrest (by simpa using hf)]

theorem rangeString_ascii (s : GoString) (ha : ascii s) :
    rangeString s = (List.enumFrom 0 s).map (fun p => (p.1, (p.2 : Int))) :=
  rangeFrom_ascii s.length 0 s ha (Nat.le_refl _)

/-! ## The loop of Insert on ASCII strings -/

theorem insertWord_cons (size : Int) (c : Int) (rest : List Int) (r : node) (words : Int) :
    insertWord size (c :: rest) r words =
      (r.setChild (Int.tmod c size)
          (some (insertWord size rest (childFor size c rest.isEmpty r words).1
            (childFor size c rest.isEmpty r words).2).1),
        (insertWord size rest (childFor size c rest.isEmpty r words).1
            (childFor size c rest.isEmpty r words).2).2) := by
  simp only [insertWord, childFor]
  cases r.next c size with
  | none => rfl
  | some n =>
    by_cases hc : (rest.isEmpty && !n.isEnd) = true
    · simp only [hc, if_true]
    · have hc' : (rest.isEmpty && !n.isEnd) = false := by
        cases h : (rest.isEmpty && !n.isEnd)
        · rfl
        · exact absurd h hc
      simp only [hc', Bool.false_eq_true, if_false]

theorem insertLoop_enum (size : Int) (len i : Nat) (s : GoString) (hlen : i + s.length = len)
    (r : node) (words : Int) :
    insertLoop size len ((List.enumFrom i s).map (fun p => (p.1, (p.2 : Int)))) r words =
      insertWord size (s.map Int.ofNat) r words := by
  induction s generalizing i r words with
  | nil => rfl
  | cons b rest ih =>
    have hd : (i + 1 = len) ↔ rest = [] := by
      simp only [List.length_cons] at hlen
      constructor
      · intro h
        exact List.length_eq_zero.1 (by omega)
      · intro h
        subst h
        simpa using hlen
    have hdec : decide (i + 1 = len) = (rest.map Int.ofNat).isEmpty := by
      cases rest <;> simp [hd]
    have hlen' : i + 1 + rest.length = len := by
      simp only [List.length_cons] at hlen
      omega
    simp only [List.enumFrom_cons, List.map_cons, insertLoop, insertWord, ih (i + 1) hlen', hdec]
    cases hn : r.next (Int.ofNat b) size with
    | none =>
      have hn' : r.next (b : Int) size = none := hn
      simp only [hn']
      cases rest <;> simp [hd]
    | some n =>
      have hn' : r.next (b : Int) size = some n := hn
      simp only [hn']
      rfl

theorem Insert_ascii (t : Trie) (r : node) (s : GoString) (hroot : t.root = some r)
    (hsize : t.size ≠ 0) (ha : ascii s) :
    t.Insert s = some ⟨some (insertWord t.size (s.map Int.ofNat) r t.words).1,
      (insertWord t.size (s.map Int.ofNat) r t.words).2, t.size⟩ := by
  rw [Insert_eq t r s hroot hsize, rangeString_ascii s ha,
    insertLoop_enum t.size s.length 0 s (by simp)]

/-! ## What Insert does to the stored key paths -/

theorem terminal_nil (r : node) : terminal r [] = r.isEnd := rfl

theorem terminal_cons (r : node) (k : Int) (ks : List Int) :
    terminal r (k :: ks) =
      (match mapGet r.nodes k with
       | none => false
       | some c => terminal c ks) := by
  simp only [terminal, nodeAt]
  cases mapGet r.nodes k <;> rfl

theorem terminal_setChild_same (r n : node) (k : Int) (ks : List Int) :
    terminal (r.setChild k (some n)) (k :: ks) = terminal n ks := by
  simp [terminal_cons, mapGet_mapSet_same]

theorem terminal_setChild_ne (r : node) (v : Option node) (k k' : Int) (ks : List Int)
    (h : k' ≠ k) : terminal (r.setChild k v) (k' :: ks) = terminal r (k' :: ks) := by
  simp [terminal_cons, mapGet_mapSet_ne _ _ _ _ h]

theorem childFor_terminal (size c : Int) (last : Bool) (r : node) (words : Int)
    (ks : List Int) :
    terminal (childFor size c last r words).1 ks =
      (terminal r (Int.tmod c size :: ks) || (last && decide (ks = []))) := by
  unfold childFor
  rw [terminal_cons]
  unfold node.next
  cases hn : mapGet r.nodes (Int.tmod c size) with
  | none =>
    cases ks with
    | nil => simp [terminal_nil]
    | cons k' ks' => simp [terminal_cons, mapGet]
  | some n =>
    by_cases hc : (last && !n.isEnd) = true
    · simp only [hc, if_true]
      simp only [Bool.and_eq_true, Bool.not_eq_true'] at hc
      cases ks with
      | nil => simp [terminal_nil, hc.1]
      | cons k' ks' => simp [terminal_cons]
    · simp only [hc, if_false]
      cases ks with
      | nil =>
        simp only [terminal_nil, decide_True, Bool.and_true]
        cases last <;> cases h : n.isEnd <;> simp_all
      | cons k' ks' => simp

theorem childFor_words (size c : Int) (last : Bool) (r : node) (words : Int) :
    (childFor size c last r words).2 =
      words + (if last && !terminal r [Int.tmod c size] then 1 else 0) := by
  unfold childFor
  rw [terminal_cons]
  unfold node.next
  cases hn : mapGet r.nodes (Int.tmod c size) with
  | none => cases last <;> simp
  | some n =>
    simp only [terminal_nil]
    by_cases hc : (last && !n.isEnd) = true
    · simp [hc]
    · simp [hc]

theorem insertWord_isEnd (size : Int) (cs : List Int) (r : node) (words : Int) :
    (insertWord size cs r words).1.isEnd = r.isEnd := by
  cases cs with
  | nil => rfl
  | cons c rest => rw [insertWord_cons]; rfl

theorem insertWord_char (size : Int) (cs : List Int) (r : node) (words : Int) :
    (insertWord size cs r words).1.char = r.char := by
  cases cs with
  | nil => rfl
  | cons c rest => rw [insertWord_cons]; rfl

theorem terminal_insertWord (size : Int) (cs : List Int) (hcs : cs ≠ []) (r : node)
    (words : Int) (ks : List Int) :
    terminal (insertWord size cs r words).1 ks =
      (terminal r ks || decide (ks = cs.map (fun c => Int.tmod c size))) := by
  induction cs generalizing r words ks with
  | nil => exact absurd rfl hcs
  | cons c rest ih =>
    rw [insertWord_cons]
    cases ks with
    | nil => simp [terminal_nil]
    | cons k ks' =>
      by_cases hk : k = Int.tmod c size
      · subst hk
        simp only [terminal_setChild_same, List.map_cons]
        cases rest with
        | nil =>
          simp only [insertWord, childFor_terminal, List.isEmpty_nil, Bool.true_and, List.map_nil]
          simp
        | cons d rest' =>
          rw [ih (by simp), childFor_terminal]
          simp
      · rw [terminal_setChild_ne _ _ _ _ _ hk]
        simp [hk]

theorem words_insertWord (size : Int) (cs : List Int) (hcs : cs ≠ []) (r : node)
    (words : Int) :
    (insertWord size cs r words).2 =
      words + (if terminal r (cs.map (fun c => Int.tmod c size)) then 0 else 1) := by
  induction cs generalizing r words with
  | nil => exact absurd rfl hcs
  | cons c rest ih =>
    rw [insertWord_cons]
    cases rest with
    | nil =>
      simp only [insertWord, childFor_words, List.isEmpty_nil, Bool.true_and, List.map_cons,
        List.map_nil]
      by_cases ht : terminal r [Int.tmod c size] = true
      · simp [ht]
      · simp [ht]
    | cons d rest' =>
      simp only
      rw [ih (by simp), childFor_words, childFor_terminal]
      simp

theorem words_insertWord_nonneg (size : Int) (cs : List Int) (r : node) (words : Int) :
    words ≤ (insertWord size cs r words).2 := by
  cases cs with
  | nil => simp [insertWord]
  | cons c rest =>
    rw [words_insertWord size (c :: rest) (by simp)]
    split <;> omega

/-! ## The shape of the tree -/

theorem Inv_leaf (size : Int) (sym : Int → Prop) (c : Int) (e : Bool) :
    Inv size sym (.mk c [] e) :=
  Inv.mk c [] e (by simp) (by simp) (by simp)

theorem Inv_child (size : Int) (sym : Int → Prop) (n m : node) (k : Int)
    (h : Inv size sym n) (hm : mapGet n.nodes k = some m) :
    sym m.char ∧ Int.tmod m.char size = k ∧ Inv size sym m := by
  cases h with
  | mk c mp e hnd hsym hinv =>
    have hmem := mapGet_mem mp k m hm
    exact ⟨(hsym k m hmem).1, (hsym k m hmem).2, hinv k m hmem⟩

theorem Inv_keys (size : Int) (sym : Int → Prop) (n : node) (h : Inv size sym n) :
    (n.nodes.map Prod.fst).Nodup := by
  cases h with
  | mk c mp e hnd hsym hinv => exact hnd

theorem Inv_mem (size : Int) (sym : Int → Prop) (n m : node) (k : Int)
    (h : Inv size sym n) (hm : (k, some m) ∈ n.nodes) :
    sym m.char ∧ Int.tmod m.char size = k ∧ Inv size sym m := by
  cases h with
  | mk c mp e hnd hsym hinv => exact ⟨(hsym k m hm).1, (hsym k m hm).2, hinv k m hm⟩

theorem Inv_setEnd (size : Int) (sym : Int → Prop) (n : node) (e : Bool)
    (h : Inv size sym n) : Inv size sym (n.setEnd e) := by
  cases h with
  | mk c mp e' hnd hsym hinv => exact Inv.mk c mp e hnd hsym hinv

theorem Inv_setChild (size : Int) (sym : Int → Prop) (n : node) (k : Int) (v : Option node)
    (h : Inv size sym n)
    (hv : ∀ m, v = some m → sym m.char ∧ Int.tmod m.char size = k ∧ Inv size sym m) :
    Inv size sym (n.setChild k v) := by
  cases h with
  | mk c mp e hnd hsym hinv =>
    refine Inv.mk c (mapSet mp k v) e (mapSet_keys_nodup mp k v hnd) ?_ ?_
    · intro k' m hmem
      rcases mem_mapSet mp k k' v m hmem with h1 | ⟨h1, h2⟩
      · exact hsym k' m h1
      · subst h1
        exact ⟨(hv m h2).1, (hv m h2).2.1⟩
    · intro k' m hmem
      rcases mem_mapSet mp k k' v m hmem with h1 | ⟨h1, h2⟩
      · exact hinv k' m h1
      · exact (hv m h2).2.2

theorem Inv_nodeAt (size : Int) (sym : Int → Prop) (r n : node) (p : List Int)
    (h : Inv size sym r) (hn : nodeAt r p = some n) : Inv size sym n := by
  induction p generalizing r with
  | nil =>
    simp only [nodeAt, Option.some.injEq] at hn
    exact hn ▸ h
  | cons k ks ih =>
    simp only [nodeAt] at hn
    cases hc : mapGet r.nodes k with
    | none => simp [hc] at hn
    | some c =>
      simp only [hc] at hn
      exact ih c (Inv_child size sym r c k h hc).2.2 hn

theorem Inv_modifyAt (size : Int) (sym : Int → Prop) (f : node → node) (r : node)
    (p : List Int) (h : Inv size sym r)
    (hf : ∀ n, Inv size sym n → Inv size sym (f n) ∧ (f n).char = n.char) :
    Inv size sym (modifyAt f r p) ∧ (modifyAt f r p).char = r.char := by
  induction p generalizing r with
  | nil => exact hf r h
  | cons k ks ih =>
    simp only [modifyAt]
    cases hc : mapGet r.nodes k with
    | none => exact ⟨h, rfl⟩
    | some c =>
      have hch := Inv_child size sym r c k h hc
      have hi := ih c hch.2.2
      refine ⟨Inv_setChild size sym r k _ h ?_, rfl⟩
      intro m hm
      simp only [Option.some.injEq] at hm
      subst hm
      rw [hi.2]
      exact ⟨hch.1, hch.2.1, hi.1⟩

theorem childFor_Inv (size : Int) (sym : Int → Prop) (c : Int) (last : Bool) (r : node)
    (words : Int) (h : Inv size sym r) (hc : sym c)
    (hinj : ∀ a b, sym a → sym b → Int.tmod a size = Int.tmod b size → a = b) :
    Inv size sym (childFor size c last r words).1 ∧ (childFor size c last r words).1.char = c := by
  unfold childFor node.next
  cases hn : mapGet r.nodes (Int.tmod c size) with
  | none => exact ⟨Inv_leaf size sym c last, rfl⟩
  | some n =>
    have hch := Inv_child size sym r n _ h hn
    have hcn : n.char = c := hinj _ _ hch.1 hc hch.2.1
    by_cases hcond : (last && !n.isEnd) = true
    · simp only [hcond, if_true]
      exact ⟨Inv_setEnd size sym n true hch.2.2, hcn⟩
    · simp only [hcond, if_false]
      exact ⟨hch.2.2, hcn⟩

theorem Inv_insertWord (size : Int) (sym : Int → Prop) (cs : List Int) (r : node)
    (words : Int) (h : Inv size sym r) (hcs : ∀ c ∈ cs, sym c)
    (hinj : ∀ a b, sym a → sym b → Int.tmod a size = Int.tmod b size → a = b) :
    Inv size sym (insertWord size cs r words).1 := by
  induction cs generalizing r words with
  | nil => exact h
  | cons c rest ih =>
    rw [insertWord_cons]
    have hc : sym c := hcs c (List.mem_cons_self _ _)
    have hch := childFor_Inv size sym c rest.isEmpty r words h hc hinj
    refine Inv_setChild size sym r _ _ h ?_
    intro m hm
    simp only [Option.some.injEq] at hm
    subst hm
    rw [insertWord_char, hch.2]
    exact ⟨hc, rfl, ih _ _ hch.1 (fun c' hc' => hcs c' (List.mem_cons_of_mem _ hc'))⟩

/-! ## The counter and the marked nodes under Insert -/

theorem countPtr_some (c : node) : countPtr (some c) = countEnd c := rfl

theorem childFor_count (size c : Int) (last : Bool) (r : node) (words : Int) :
    (childFor size c last r words).2 - (countEnd (childFor size c last r words).1 : Int) =
      words - (countPtr (mapGet r.nodes (Int.tmod c size)) : Int) := by
  unfold childFor node.next
  cases hn : mapGet r.nodes (Int.tmod c size) with
  | none => cases last <;> simp [countEnd, countEnds, countPtr]
  | some n =>
    by_cases hcond : (last && !n.isEnd) = true
    · simp only [hcond, if_true, countPtr]
      simp only [Bool.and_eq_true, Bool.not_eq_true'] at hcond
      rw [countEnd_eq (n.setEnd true), countEnd_eq n]
      simp [hcond.2]
      ring
    · simp only [hcond, Bool.false_eq_true, if_false, countPtr]

theorem count_insertWord (size : Int) (cs : List Int) (r : node) (words : Int) :
    (insertWord size cs r words).2 - (countEnd (insertWord size cs r words).1 : Int) =
      words - (countEnd r : Int) := by
  induction cs generalizing r words with
  | nil => rfl
  | cons c rest ih =>
    rw [insertWord_cons]
    simp only
    have h1 := ih (childFor size c rest.isEmpty r words).1 (childFor size c rest.isEmpty r words).2
    have h2 := childFor_count size c rest.isEmpty r words
    rw [countEnd_eq (r.setChild _ _), countEnd_eq r]
    simp only [setChild_nodes, setChild_isEnd]
    push_cast
    rw [countEnds_mapSet, countPtr_some]
    linarith

/-! ## The loop of traverse on ASCII strings -/

theorem traverseLoop_enum (size : Int) (hsize : size ≠ 0) (pre suf : GoString)
    (n : Option ref) :
    traverseLoop (pre ++ suf) size
        ((List.enumFrom pre.length suf).map (fun p => (p.1, (p.2 : Int)))) n =
      some (walkWord size (suf.map Int.ofNat) n) := by
  induction suf generalizing pre n with
  | nil => rfl
  | cons c rest ih =>
    cases n with
    | none => rfl
    | some r =>
      simp only [List.enumFrom_cons, List.map_cons, traverseLoop, walkWord]
      by_cases hch : r.nd.char = Int.ofNat c
      · have hch' : r.nd.char = (c : Int) := hch
        simp only [hch, hch', ne_eq, not_true_eq_false, if_false]
        cases rest with
        | nil => simp [traverseLoop]
        | cons d rest' =>
          have hne : pre.length + 1 ≠ (pre ++ c :: d :: rest').length := by
            simp
          have hget : (pre ++ c :: d :: rest').get? (pre.length + 1) = some d := by
            rw [List.get?_eq_getElem?, List.getElem?_append_right (by omega)]
            simp
          rw [if_pos hne]
          simp only [hget, hsize, if_false]
          have := ih (pre ++ [c]) (r.next (d : Int) size)
          simp only [List.append_assoc, List.singleton_append, List.length_append,
            List.length_singleton] at this
          rw [if_neg (fun h => h rfl)]
          exact this
      · have hch' : ¬ r.nd.char = (c : Int) := hch
        simp [hch, hch']

theorem traverse_ascii (size : Int) (hsize : size ≠ 0) (s : GoString) (ha : ascii s)
    (n : Option ref) : traverse n s size = some (walkWord size (s.map Int.ofNat) n) := by
  unfold traverse
  rw [rangeString_ascii s ha]
  exact traverseLoop_enum size hsize [] s n

theorem walkWord_Inv (size : Int) (sym : Int → Prop)
    (hinj : ∀ a b, sym a → sym b → Int.tmod a size = Int.tmod b size → a = b)
    (c : Int) (rest : List Int) (r : ref) (h : Inv size sym r.nd) (hc : r.nd.char = c)
    (hrest : ∀ d ∈ rest, sym d) :
    walkWord size (c :: rest) (some r) =
      (nodeAt r.nd (rest.map (fun d => Int.tmod d size))).map
        (fun m => ⟨r.path ++ rest.map (fun d => Int.tmod d size), m⟩) := by
  induction rest generalizing r c with
  | nil => simp [walkWord, hc, nodeAt]
  | cons d rest' ih =>
    have hd : sym d := hrest d (List.mem_cons_self _ _)
    have hrest' : ∀ x ∈ rest', sym x := fun x hx => hrest x (List.mem_cons_of_mem _ hx)
    simp only [walkWord, hc, ne_eq, not_true_eq_false, if_false, List.map_cons, nodeAt]
    unfold ref.next node.next
    cases hn : mapGet r.nd.nodes (Int.tmod d size) with
    | none => simp [walkWord]
    | some m =>
      have hch := Inv_child size sym r.nd m _ h hn
      have hm : m.char = d := hinj _ _ hch.1 hd hch.2.1
      simp only
      rw [ih d ⟨r.path ++ [Int.tmod d size], m⟩ hch.2.2 hm hrest']
      simp

theorem keys_eq (size : Int) (w : GoString) :
    keys size w = (w.map Int.ofNat).map (fun d => Int.tmod d size) := by
  simp [keys, bucket, Function.comp_def]

theorem traverse_word (t : Trie) (r0 : node) (sym : Int → Prop) (w : GoString)
    (hroot : t.root = some r0) (hsize : t.size ≠ 0) (h : Inv t.size sym r0)
    (hinj : ∀ a b, sym a → sym b → Int.tmod a t.size = Int.tmod b t.size → a = b)
    (hw : w ≠ []) (ha : ascii w) (hsym : ∀ b ∈ w, sym (b : Int)) :
    ∃ n0, t.start w = some n0 ∧
      traverse n0 w t.size =
        some ((nodeAt r0 (keys t.size w)).map (fun m => ⟨keys t.size w, m⟩)) := by
  cases w with
  | nil => exact absurd rfl hw
  | cons b rest =>
    refine ⟨ref.next ⟨[], r0⟩ (b : Int) t.size, by simp [Trie.start, hroot, hsize], ?_⟩
    rw [traverse_ascii t.size hsize _ ha, keys_eq]
    simp only [List.map_cons, nodeAt]
    unfold ref.next node.next
    have hb : sym (b : Int) := hsym b (List.mem_cons_self _ _)
    cases hn : mapGet r0.nodes (Int.tmod (b : Int) t.size) with
    | none =>
      have hn' : mapGet r0.nodes (Int.tmod (Int.ofNat b) t.size) = none := hn
      simp [walkWord, hn']
    | some m =>
      have hn' : mapGet r0.nodes (Int.tmod (Int.ofNat b) t.size) = some m := hn
      have hch := Inv_child t.size sym r0 m _ h hn
      have hm : m.char = (b : Int) := hinj _ _ hch.1 hb hch.2.1
      simp only [hn']
      rw [walkWord_Inv t.size sym hinj (Int.ofNat b) (rest.map Int.ofNat) ⟨_, m⟩ hch.2.2 hm]
      · simp
      · intro d hd
        obtain ⟨x, hx, rfl⟩ := List.mem_map.1 hd
        exact hsym x (List.mem_cons_of_mem _ hx)

theorem Has_word (t : Trie) (r0 : node) (sym : Int → Prop) (w : GoString)
    (hroot : t.root = some r0) (hsize : t.size ≠ 0) (h : Inv t.size sym r0)
    (hinj : ∀ a b, sym a → sym b → Int.tmod a t.size = Int.tmod b t.size → a = b)
    (hw : w ≠ []) (ha : ascii w) (hsym : ∀ b ∈ w, sym (b : Int)) :
    t.Has w = some (terminal r0 (keys t.size w)) := by
  obtain ⟨n0, h0, htr⟩ := traverse_word t r0 sym w hroot hsize h hinj hw ha hsym
  simp only [Trie.Has, h0, htr, terminal]
  cases nodeAt r0 (keys t.size w) <;> rfl

/-! ## Sequences of Insert calls -/

theorem Init_new (size : Int) (hsize : 1 ≤ size) :
    Trie.new.Init size = some ⟨some (.mk 0 [] false), 0, size⟩ := by
  have : ¬ size < 1 := by omega
  simp [Trie.Init, Trie.new, this]

theorem terminal_empty (c : Int) (ks : List Int) : terminal (.mk c [] false) ks = false := by
  cases ks with
  | nil => rfl
  | cons k ks => simp [terminal_cons, mapGet]

theorem mem_symbolsOf (L : List GoString) (b : Nat) :
    b ∈ symbolsOf L ↔ ∃ v ∈ L, b ∈ v := by
  induction L with
  | nil => simp [symbolsOf]
  | cons v rest ih =>
    simp only [symbolsOf, List.foldr_cons, List.mem_append, List.mem_cons, exists_eq_or_imp]
    rw [← ih]

theorem keys_inj (size : Int) (sym : Int → Prop)
    (hinj : ∀ a b, sym a → sym b → Int.tmod a size = Int.tmod b size → a = b)
    (v v' : GoString) (hv : ∀ b ∈ v, sym (b : Int)) (hv' : ∀ b ∈ v', sym (b : Int))
    (h : keys size v = keys size v') : v = v' := by
  induction v generalizing v' with
  | nil =>
    cases v' with
    | nil => rfl
    | cons b rest => simp [keys] at h
  | cons a rest ih =>
    cases v' with
    | nil => simp [keys] at h
    | cons b rest' =>
      simp only [keys, List.map_cons, List.cons.injEq] at h
      have hab : (a : Int) = (b : Int) :=
        hinj _ _ (hv a (List.mem_cons_self _ _)) (hv' b (List.mem_cons_self _ _)) h.1
      have hab' : a = b := by exact_mod_cast hab
      subst hab'
      rw [ih rest' (fun x hx => hv x (List.mem_cons_of_mem _ hx))
        (fun x hx => hv' x (List.mem_cons_of_mem _ hx)) h.2]

theorem keys_ne_nil (size : Int) (w : GoString) (hw : w ≠ []) : keys size w ≠ [] := by
  cases w with
  | nil => exact absurd rfl hw
  | cons b rest => simp [keys]

theorem Insert_word (t : Trie) (r : node) (sym : Int → Prop) (w : GoString)
    (hroot : t.root = some r) (hsize : t.size ≠ 0) (h : Inv t.size sym r)
    (hinj : ∀ a b, sym a → sym b → Int.tmod a t.size = Int.tmod b t.size → a = b)
    (hw : w ≠ []) (ha : ascii w) (hsym : ∀ b ∈ w, sym (b : Int)) :
    ∃ r' words', t.Insert w = some ⟨some r', words', t.size⟩ ∧ Inv t.size sym r' ∧
      (∀ ks, terminal r' ks = (terminal r ks || decide (ks = keys t.size w))) ∧
      words' = t.words + (if terminal r (keys t.size w) then 0 else 1) ∧
      words' - (countEnd r' : Int) = t.words - (countEnd r : Int) ∧
      r'.isEnd = r.isEnd := by
  have hne : w.map Int.ofNat ≠ [] := by
    cases w with
    | nil => exact absurd rfl hw
    | cons b rest => simp
  refine ⟨_, _, Insert_ascii t r w hroot hsize ha, ?_, ?_, ?_, ?_, ?_⟩
  · apply Inv_insertWord t.size sym _ r t.words h _ hinj
    intro c hc
    obtain ⟨x, hx, rfl⟩ := List.mem_map.1 hc
    exact hsym x hx
  · intro ks
    rw [terminal_insertWord t.size _ hne, keys_eq]
  · rw [words_insertWord t.size _ hne, keys_eq]
  · exact count_insertWord t.size _ r t.words
  · exact insertWord_isEnd t.size _ r t.words

theorem inserts_spec (size : Int) (hsize : size ≠ 0) (sym : Int → Prop)
    (hinj : ∀ a b, sym a → sym b → Int.tmod a size = Int.tmod b size → a = b)
    (L : List GoString) (hL : ∀ v ∈ L, v ≠ [] ∧ ascii v ∧ ∀ b ∈ v, sym (b : Int))
    (r : node) (words : Int) (h : Inv size sym r) :
    ∃ r' words', run ⟨some r, words, size⟩ (L.map Op.insert) = some ⟨some r', words', size⟩ ∧
      Inv size sym r' ∧
      (∀ ks, terminal r' ks = true ↔ (terminal r ks = true ∨ ∃ v ∈ L, ks = keys size v)) ∧
      (L.Nodup → (∀ v ∈ L, terminal r (keys size v) = false) → words' = words + L.length) := by
  induction L generalizing r words with
  | nil => exact ⟨r, words, rfl, h, by simp, by simp⟩
  | cons w rest ih =>
    obtain ⟨hw, ha, hsym⟩ := hL w (List.mem_cons_self _ _)
    have hrest : ∀ v ∈ rest, v ≠ [] ∧ ascii v ∧ ∀ b ∈ v, sym (b : Int) :=
      fun v hv => hL v (List.mem_cons_of_mem _ hv)
    obtain ⟨r1, w1, hins, hinv1, hterm1, hw1, -, -⟩ :=
      Insert_word ⟨some r, words, size⟩ r sym w rfl hsize h hinj hw ha hsym
    obtain ⟨r2, w2, hrun, hinv2, hterm2, hcount2⟩ := ih hrest r1 w1 hinv1
    refine ⟨r2, w2, ?_, hinv2, ?_, ?_⟩
    · simp only [List.map_cons, run, Trie.step, hins]
      exact hrun
    · intro ks
      rw [hterm2 ks, hterm1 ks]
      simp only [Bool.or_eq_true, decide_eq_true_eq, List.mem_cons, exists_eq_or_imp]
      tauto
    · intro hnd hfresh
      simp only [List.nodup_cons] at hnd
      have hfw : terminal r (keys size w) = false := hfresh w (List.mem_cons_self _ _)
      rw [hcount2 hnd.2, hw1]
      · simp [hfw]
        ring
      · intro v hv
        rw [hterm1 (keys size v), hfresh v (List.mem_cons_of_mem _ hv)]
        simp only [Bool.false_or, decide_eq_false_iff_not]
        intro hk
        have : v = w := keys_inj size sym hinj v w (hrest v hv).2.2 hsym hk
        exact hnd.1 (this ▸ hv)

theorem bucketsDistinct_inj (size : Int) (syms : List Nat) (hb : bucketsDistinct size syms) :
    ∀ a b : Int, (∃ x ∈ syms, a = (x : Int)) → (∃ x ∈ syms, b = (x : Int)) →
      Int.tmod a size = Int.tmod b size → a = b := by
  rintro a b ⟨x, hx, rfl⟩ ⟨y, hy, rfl⟩ h
  rw [hb x hx y hy h]

/-- Membership for ASCII query words: for an alphabet size of at least 1, a
list `S` of non-empty ASCII words and an ASCII query word `w` such that distinct
symbols of `S` and `w` fall into distinct buckets, `Init(size)` and the `Insert`
of every word of `S` return, and afterwards `Has(w)` is true if and only if `w`
is an element of `S` (for a non-empty `w` it returns exactly that boolean). For
a query word that is not ASCII this fails, as the last section shows. -/
theorem Has_iff_mem_after_inserts (size : Int) (S : List GoString) (w : GoString)
    (hsize : 1 ≤ size) (hS : ∀ v ∈ S, v ≠ [] ∧ ascii v) (hw : ascii w)
    (hb : bucketsDistinct size (symbolsOf (w :: S))) :
    ∃ t0 t, Trie.new.Init size = some t0 ∧ run t0 (S.map Op.insert) = some t ∧
      (t.Has w = some true ↔ w ∈ S) ∧ (w ≠ [] → t.Has w = some (decide (w ∈ S))) := by
  have hsz : size ≠ 0 := by omega
  have hinj := bucketsDistinct_inj size _ hb
  have hsymS : ∀ v ∈ S, ∀ b ∈ v, ∃ x ∈ symbolsOf (w :: S), (b : Int) = (x : Int) :=
    fun v hv b hbv => ⟨b, (mem_symbolsOf _ b).2 ⟨v, List.mem_cons_of_mem _ hv, hbv⟩, rfl⟩
  have hsymw : ∀ b ∈ w, ∃ x ∈ symbolsOf (w :: S), (b : Int) = (x : Int) :=
    fun b hbw => ⟨b, (mem_symbolsOf _ b).2 ⟨w, List.mem_cons_self _ _, hbw⟩, rfl⟩
  obtain ⟨r, words, hrun, hinv, hterm, -⟩ := inserts_spec size hsz _ hinj S
    (fun v hv => ⟨(hS v hv).1, (hS v hv).2, hsymS v hv⟩) (.mk 0 [] false) 0
    (Inv_leaf size _ 0 false)
  refine ⟨_, _, Init_new size hsize, hrun, ?_⟩
  have hmem : w ≠ [] → (terminal r (keys size w) = true ↔ w ∈ S) := by
    intro hne
    rw [hterm, terminal_empty]
    constructor
    · rintro (h | ⟨v, hv, hk⟩)
      · simp at h
      · rw [keys_inj size _ hinj w v hsymw (hsymS v hv) hk]
        exact hv
    · intro h
      exact Or.inr ⟨w, h, rfl⟩
  by_cases hne : w = []
  · subst hne
    refine ⟨?_, fun h => absurd rfl h⟩
    constructor
    · intro h
      simp [Trie.Has, Trie.start] at h
    · intro h
      exact absurd rfl (hS [] h).1
  · have hHas := Has_word ⟨some r, words, size⟩ r _ w rfl hsz hinv hinj hne hw hsymw
    rw [hHas]
    simp only [Option.some.injEq]
    refine ⟨hmem hne, fun _ => ?_⟩
    by_cases hin : w ∈ S
    · simp [hin, (hmem hne).2 hin]
    · have : terminal r (keys size w) = false := by
        cases ht : terminal r (keys size w)
        · rfl
        · exact absurd ((hmem hne).1 ht) hin
      simp [hin, this]

theorem Has_iff_mem_after_inserts_witness :
    (1 : Int) ≤ 26 ∧ (∀ v ∈ [str "car", str "cart"], v ≠ [] ∧ ascii v) ∧ ascii (str "ca") ∧
    bucketsDistinct 26 (symbolsOf [str "ca", str "car", str "cart"]) ∧
    ∃ t0 t, Trie.new.Init 26 = some t0 ∧
      run t0 ([str "car", str "cart"].map Op.insert) = some t ∧
      (t.Has (str "ca") = some true ↔ str "ca" ∈ [str "car", str "cart"]) ∧
      (str "ca" ≠ [] → t.Has (str "ca") = some (decide (str "ca" ∈ [str "car", str "cart"]))) :=
  ⟨by decide, by decide, by decide, by decide,
    Has_iff_mem_after_inserts 26 [str "car", str "cart"] (str "ca") (by decide) (by decide)
      (by decide) (by decide)⟩

/-- C5: for an alphabet size of at least 1 and a list of `n` pairwise distinct
non-empty ASCII words whose distinct symbols fall into distinct buckets,
`Init(size)` on a new trie and the `Insert` of every word of the list, in any
order, return and leave `Len()` equal to `n`. -/
theorem Len_after_distinct_inserts (size : Int) (L L' : List GoString) (hsize : 1 ≤ size)
    (hL : ∀ v ∈ L, v ≠ [] ∧ ascii v) (hnd : L.Nodup)
    (hb : bucketsDistinct size (symbolsOf L)) (hperm : L'.Perm L) :
    ∃ t0 t, Trie.new.Init size = some t0 ∧ run t0 (L'.map Op.insert) = some t ∧
      t.Len = L.length := by
  have hsz : size ≠ 0 := by omega
  have hinj := bucketsDistinct_inj size _ hb
  have hsym : ∀ v ∈ L', ∀ b ∈ v, ∃ x ∈ symbolsOf L, (b : Int) = (x : Int) :=
    fun v hv b hbv => ⟨b, (mem_symbolsOf _ b).2 ⟨v, hperm.mem_iff.1 hv, hbv⟩, rfl⟩
  obtain ⟨r, words, hrun, -, -, hcount⟩ := inserts_spec size hsz _ hinj L'
    (fun v hv => ⟨(hL v (hperm.mem_iff.1 hv)).1, (hL v (hperm.mem_iff.1 hv)).2, hsym v hv⟩)
    (.mk 0 [] false) 0 (Inv_leaf size _ 0 false)
  refine ⟨_, _, Init_new size hsize, hrun, ?_⟩
  have := hcount (hperm.nodup_iff.2 hnd) (fun v _ => terminal_empty 0 _)
  simp only [Trie.Len, this, hperm.length_eq]
  simp

theorem Len_after_distinct_inserts_witness :
    (1 : Int) ≤ 26 ∧ (∀ v ∈ [str "car", str "cart", str "dog"], v ≠ [] ∧ ascii v) ∧
    [str "car", str "cart", str "dog"].Nodup ∧
    bucketsDistinct 26 (symbolsOf [str "car", str "cart", str "dog"]) ∧
    [str "dog", str "car", str "cart"].Perm [str "car", str "cart", str "dog"] ∧
    ∃ t0 t, Trie.new.Init 26 = some t0 ∧
      run t0 ([str "dog", str "car", str "cart"].map Op.insert) = some t ∧
      t.Len = [str "car", str "cart", str "dog"].length :=
  ⟨by decide, by decide, by decide, by decide, by decide,
    Len_after_distinct_inserts 26 [str "car", str "cart", str "dog"]
      [str "dog", str "car", str "cart"] (by decide) (by decide) (by decide) (by decide)
      (by decide)⟩

/-! ## What Delete does to the stored key paths -/

theorem terminal_append (r : node) (p u : List Int) :
    terminal r (p ++ u) =
      (match nodeAt r p with
       | none => false
       | some n => terminal n u) := by
  simp only [terminal, nodeAt_append]
  cases nodeAt r p <;> rfl

theorem terminal_modifyAt_append (f : node → node) (r n : node) (p u : List Int)
    (h : nodeAt r p = some n) : terminal (modifyAt f r p) (p ++ u) = terminal (f n) u := by
  simp only [terminal, nodeAt_modifyAt_append f r n p u h]

theorem terminal_no_children (n : node) (k : Int) (ks : List Int)
    (h : n.nodes.length = 0) : terminal n (k :: ks) = false := by
  have : n.nodes = [] := List.length_eq_zero.1 h
  simp [terminal_cons, this, mapGet]

theorem countEnd_no_children (n : node) (h : n.nodes.length = 0) (he : n.isEnd = true) :
    countEnd n = 1 := by
  have : n.nodes = [] := List.length_eq_zero.1 h
  rw [countEnd_eq, this, he]
  simp [countEnds]

theorem unmark_spec (size : Int) (sym : Int → Prop) (r n : node) (p : List Int)
    (hinv : Inv size sym r) (hn : nodeAt r p = some n) (he : n.isEnd = true) :
    Inv size sym (modifyAt (fun m => m.setEnd false) r p) ∧
    (∀ ks, terminal (modifyAt (fun m => m.setEnd false) r p) ks =
      (terminal r ks && !decide (ks = p))) ∧
    (countEnd (modifyAt (fun m => m.setEnd false) r p) : Int) = countEnd r - 1 := by
  refine ⟨(Inv_modifyAt size sym _ r p hinv
    (fun m hm => ⟨Inv_setEnd size sym m false hm, rfl⟩)).1, ?_, ?_⟩
  · intro ks
    by_cases hp : p <+: ks
    · obtain ⟨u, rfl⟩ := hp
      rw [terminal_modifyAt_append _ r n p u hn, terminal_append, hn]
      cases u with
      | nil => simp [terminal_nil]
      | cons k u' => simp [terminal_cons]
    · rw [terminal_modifyAt_other _ r p ks hp]
      have : ks ≠ p := fun h => hp (h ▸ List.prefix_refl _)
      simp [this]
  · rw [countEnd_modifyAt _ r n p hn, countEnd_eq (n.setEnd false), countEnd_eq n]
    simp [he]
    ring

theorem detach_spec (size : Int) (sym : Int → Prop) (r n : node) (p0 : List Int) (k : Int)
    (hinv : Inv size sym r) (hn : nodeAt r (p0 ++ [k]) = some n)
    (hl : n.nodes.length = 0) (he : n.isEnd = true) :
    Inv size sym (modifyAt (fun m => m.setChild k none) r p0) ∧
    (∀ ks, terminal (modifyAt (fun m => m.setChild k none) r p0) ks =
      (terminal r ks && !decide (ks = p0 ++ [k]))) ∧
    (countEnd (modifyAt (fun m => m.setChild k none) r p0) : Int) = countEnd r - 1 := by
  have hp : ∃ pn, nodeAt r p0 = some pn ∧ mapGet pn.nodes k = some n := by
    rw [nodeAt_append] at hn
    cases hpn : nodeAt r p0 with
    | none => simp [hpn] at hn
    | some pn =>
      refine ⟨pn, rfl, ?_⟩
      simp only [hpn, Option.some_bind, nodeAt] at hn
      cases hc : mapGet pn.nodes k with
      | none => simp [hc] at hn
      | some c =>
        simp only [hc, Option.some.injEq] at hn
        rw [hn]
  obtain ⟨pn, hpn, hk⟩ := hp
  refine ⟨(Inv_modifyAt size sym _ r p0 hinv
    (fun m hm => ⟨Inv_setChild size sym m k none hm (by simp), rfl⟩)).1, ?_, ?_⟩
  · intro ks
    by_cases hp : p0 <+: ks
    · obtain ⟨u, rfl⟩ := hp
      rw [terminal_modifyAt_append _ r pn p0 u hpn, terminal_append, hpn]
      cases u with
      | nil => simp [terminal_nil]
      | cons k' u' =>
        by_cases hkk : k' = k
        · subst hkk
          simp only [terminal_cons, setChild_nodes, mapGet_mapSet_same, hk, List.append_cancel_left_eq,
            List.cons.injEq, true_and]
          cases u' with
          | nil => simp
          | cons k2 u2 => simp [terminal_no_children n k2 u2 hl]
        · simp [terminal_cons, mapGet_mapSet_ne _ _ _ _ hkk, hkk]
    · rw [terminal_modifyAt_other _ r p0 ks hp]
      have : ks ≠ p0 ++ [k] := fun h => hp (h ▸ List.prefix_append _ _)
      simp [this]
  · rw [countEnd_modifyAt _ r pn p0 hpn, countEnd_eq (pn.setChild k none), countEnd_eq pn]
    simp only [setChild_isEnd, setChild_nodes]
    push_cast
    rw [countEnds_mapSet, hk, countPtr_some, countEnd_no_children n hl he]
    simp [countPtr]
    ring

/-! ## Words with symbols below the alphabet size -/

theorem symBelow_tmod (size c : Int) (h : symBelow size c) : Int.tmod c size = c :=
  Int.tmod_eq_of_lt h.1 h.2.1

theorem symBelow_inj (size : Int) :
    ∀ a b, symBelow size a → symBelow size b → Int.tmod a size = Int.tmod b size → a = b := by
  intro a b ha hb h
  rwa [symBelow_tmod size a ha, symBelow_tmod size b hb] at h

theorem Word_sym (size : Int) (w : GoString) (hw : Word size w) :
    ∀ b ∈ w, symBelow size (b : Int) :=
  fun b hb => ⟨Int.ofNat_nonneg b, (hw.2 b hb).2, by exact_mod_cast (hw.2 b hb).1⟩

theorem Word_ascii (size : Int) (w : GoString) (hw : Word size w) : ascii w :=
  fun b hb => (hw.2 b hb).1

theorem nodeAt_concat (r n : node) (p0 : List Int) (k : Int)
    (hn : nodeAt r (p0 ++ [k]) = some n) :
    ∃ pn, nodeAt r p0 = some pn ∧ mapGet pn.nodes k = some n := by
  rw [nodeAt_append] at hn
  cases hpn : nodeAt r p0 with
  | none => simp [hpn] at hn
  | some pn =>
    refine ⟨pn, rfl, ?_⟩
    simp only [hpn, Option.some_bind, nodeAt] at hn
    cases hc : mapGet pn.nodes k with
    | none => simp [hc] at hn
    | some c =>
      simp only [hc, Option.some.injEq] at hn
      rw [hn]

theorem Delete_absent (t : Trie) (r : node) (s : GoString) (n0 : Option ref)
    (res : Option ref) (hroot : t.root = some r) (h0 : t.start s = some n0)
    (htr : traverse n0 s t.size = some res)
    (hres : ∀ x, res = some x → x.nd.isEnd = false) :
    t.Delete s = some (⟨some r, t.words - 0, t.size⟩, false) := by
  obtain ⟨root, words, size⟩ := t
  simp only at hroot
  subst hroot
  cases res with
  | none => simp [Trie.Delete, h0, htr]
  | some x => simp [Trie.Delete, h0, htr, hres x rfl]

theorem Delete_word (t : Trie) (r : node) (w : GoString) (hroot : t.root = some r)
    (hsize : t.size ≠ 0) (h : Inv t.size (symBelow t.size) r) (hw : Word t.size w) :
    ∃ r', t.Delete w = some (⟨some r',
        t.words - (if terminal r (keys t.size w) then 1 else 0), t.size⟩,
        terminal r (keys t.size w)) ∧
      Inv t.size (symBelow t.size) r' ∧
      (∀ ks, terminal r' ks = (terminal r ks && !decide (ks = keys t.size w))) ∧
      (countEnd r' : Int) = countEnd r - (if terminal r (keys t.size w) then 1 else 0) := by
  obtain ⟨n0, h0, htr⟩ := traverse_word t r (symBelow t.size) w hroot hsize h
    (symBelow_inj t.size) hw.1 (Word_ascii _ w hw) (Word_sym _ w hw)
  by_cases ht : terminal r (keys t.size w) = true
  · -- the word is stored
    cases hn : nodeAt r (keys t.size w) with
    | none => simp [terminal, hn] at ht
    | some n =>
      have he : n.isEnd = true := by simpa [terminal, hn] using ht
      rw [hn] at htr
      have hdel := Delete_eq t r w n0 ⟨keys t.size w, n⟩ hroot h0 htr
        ⟨keys_ne_nil _ w hw.1, hn⟩ he
      simp only [ht, if_true]
      by_cases hl : n.nodes.length = 0
      · rcases List.eq_nil_or_concat (keys t.size w) with hp | ⟨p0, k, hp⟩
        · exact absurd hp (keys_ne_nil _ w hw.1)
        · rw [List.concat_eq_append] at hp
          rw [hp] at hn
          obtain ⟨pn, hpn, hk⟩ := nodeAt_concat r n p0 k hn
          have hch := Inv_child _ _ pn n k (Inv_nodeAt _ _ r pn p0 h hpn) hk
          have hchar : n.char = k := by
            rw [← symBelow_tmod _ _ hch.1]
            exact hch.2.1
          have hspec := detach_spec t.size _ r n p0 k h hn hl he
          refine ⟨_, ?_, hspec.1, ?_, hspec.2.2⟩
          · rw [hdel]
            simp only [hl, if_true, hp, List.dropLast_concat, hchar]
          · intro ks
            rw [hspec.2.1 ks, hp]
      · have hspec := unmark_spec t.size _ r n (keys t.size w) h hn he
        refine ⟨_, ?_, hspec.1, hspec.2.1, hspec.2.2⟩
        rw [hdel]
        simp only [hl, if_false]
  · -- the word is not stored
    have ht' : terminal r (keys t.size w) = false := by
      cases hx : terminal r (keys t.size w)
      · rfl
      · exact absurd hx ht
    refine ⟨r, ?_, h, ?_, by simp [ht']⟩
    · rw [ht']
      simp only [Bool.false_eq_true, if_false]
      apply Delete_absent t r w n0 _ hroot h0 htr
      intro x hx
      cases hn : nodeAt r (keys t.size w) with
      | none => simp [hn] at hx
      | some n =>
        simp only [hn, Option.map_some', Option.some.injEq] at hx
        subst hx
        simpa [terminal, hn] using ht'
    · intro ks
      by_cases hk : ks = keys t.size w
      · subst hk
        simp [ht']
      · simp [hk]

/-! ## The trie stores the words that the calls leave stored -/

theorem length_filter_ne (S : List GoString) (w : GoString) (hnd : S.Nodup) :
    ((S.filter (fun v => decide (v ≠ w))).length : Int) =
      S.length - (if w ∈ S then 1 else 0) := by
  induction S with
  | nil => simp
  | cons a rest ih =>
    simp only [List.nodup_cons] at hnd
    by_cases ha : a = w
    · subst ha
      have hfil : rest.filter (fun v => decide (v ≠ a)) = rest := by
        apply List.filter_eq_self.2
        intro x hx
        have : x ≠ a := fun h => hnd.1 (h ▸ hx)
        simpa using this
      simp [hfil]
      intro x hx h
      exact hnd.1 (h ▸ hx)
    · have ha' : ¬ w = a := fun h => ha h.symm
      simp only [List.filter_cons, ha, ne_eq, not_false_eq_true, decide_True, if_true,
        List.length_cons, List.mem_cons, ha', false_or]
      push_cast
      rw [ih hnd.2]
      ring

theorem Refines_init (size : Int) : Refines size [] ⟨some (.mk 0 [] false), 0, size⟩ := by
  refine ⟨rfl, List.nodup_nil, by simp, by simp, _, rfl, Inv_leaf size _ 0 false, ?_, ?_⟩
  · intro ks
    simp [terminal_empty]
  · simp [countEnd, countEnds]

theorem Refines_mem (size : Int) (S : List GoString) (t : Trie) (r : node) (w : GoString)
    (h : Refines size S t) (hroot : t.root = some r) (hw : Word size w) :
    terminal r (keys size w) = true ↔ w ∈ S := by
  obtain ⟨-, -, hS, -, r', hroot', -, hterm, -⟩ := h
  rw [hroot] at hroot'
  simp only [Option.some.injEq] at hroot'
  subst hroot'
  rw [hterm]
  constructor
  · rintro ⟨v, hv, hk⟩
    rw [keys_inj size _ (symBelow_inj size) w v (Word_sym _ w hw) (Word_sym _ v (hS v hv)) hk]
    exact hv
  · intro h
    exact ⟨w, h, rfl⟩

theorem Refines_insert (size : Int) (hsize : 1 ≤ size) (S : List GoString) (t : Trie)
    (w : GoString) (h : Refines size S t) (hw : Word size w) :
    ∃ t', t.Insert w = some t' ∧ Refines size (storedStep S (.insert w)) t' := by
  have hmemiff := fun r hroot => Refines_mem size S t r w h hroot hw
  obtain ⟨hsz, hnd, hS, hlen, r, hroot, hinv, hterm, hcount⟩ := h
  subst hsz
  have hsz0 : t.size ≠ 0 := by omega
  obtain ⟨r1, w1, hins, hinv1, hterm1, hw1, hc1, -⟩ :=
    Insert_word t r _ w hroot hsz0 hinv (symBelow_inj t.size) hw.1 (Word_ascii _ w hw)
      (Word_sym _ w hw)
  refine ⟨_, hins, ?_⟩
  by_cases hmem : w ∈ S
  · have ht : terminal r (keys t.size w) = true := (hmemiff r hroot).2 hmem
    simp only [storedStep, hmem, if_true]
    refine ⟨rfl, hnd, hS, ?_, r1, rfl, hinv1, ?_, ?_⟩
    · simp [hw1, ht, hlen]
    · intro ks
      rw [hterm1 ks, ← hterm ks]
      simp only [Bool.or_eq_true, decide_eq_true_eq]
      constructor
      · rintro (h | h)
        · exact h
        · rw [h]; exact ht
      · exact Or.inl
    · simp only
      linarith
  · have ht : terminal r (keys t.size w) = false := by
      cases hx : terminal r (keys t.size w)
      · rfl
      · exact absurd ((hmemiff r hroot).1 hx) hmem
    simp only [storedStep, hmem, if_false]
    refine ⟨rfl, List.nodup_cons.2 ⟨hmem, hnd⟩, ?_, ?_, r1, rfl, hinv1, ?_, ?_⟩
    · intro v hv
      rcases List.mem_cons.1 hv with h | h
      · exact h ▸ hw
      · exact hS v h
    · simp [hw1, ht, hlen]
    · intro ks
      rw [hterm1 ks]
      simp only [Bool.or_eq_true, decide_eq_true_eq, List.mem_cons, exists_eq_or_imp]
      rw [hterm ks]
      exact or_comm
    · simp only
      linarith

theorem Refines_delete (size : Int) (hsize : 1 ≤ size) (S : List GoString) (t : Trie)
    (w : GoString) (h : Refines size S t) (hw : Word size w) :
    ∃ t', t.Delete w = some (t', decide (w ∈ S)) ∧
      Refines size (storedStep S (.delete w)) t' := by
  have hmemiff := fun r hroot => Refines_mem size S t r w h hroot hw
  obtain ⟨hsz, hnd, hS, hlen, r, hroot, hinv, hterm, hcount⟩ := h
  subst hsz
  have hsz0 : t.size ≠ 0 := by omega
  obtain ⟨r1, hdel, hinv1, hterm1, hc1⟩ := Delete_word t r w hroot hsz0 hinv hw
  have hd : terminal r (keys t.size w) = decide (w ∈ S) := by
    by_cases hmem : w ∈ S
    · simp [hmem, (hmemiff r hroot).2 hmem]
    · cases hx : terminal r (keys t.size w)
      · simp [hmem]
      · exact absurd ((hmemiff r hroot).1 hx) hmem
  rw [hd] at hdel
  refine ⟨_, hdel, ?_⟩
  simp only [storedStep]
  refine ⟨rfl, hnd.filter _, ?_, ?_, r1, rfl, hinv1, ?_, ?_⟩
  · intro v hv
    exact hS v (List.mem_filter.1 hv).1
  · simp only [length_filter_ne S w hnd, hlen, hd, decide_eq_true_eq]
  · intro ks
    rw [hterm1 ks]
    simp only [Bool.and_eq_true, hterm ks, Bool.not_eq_true', decide_eq_false_iff_not,
      List.mem_filter, decide_eq_true_eq, ne_eq]
    constructor
    · rintro ⟨⟨v, hv, hk⟩, hne⟩
      exact ⟨v, ⟨hv, fun h => hne (h ▸ hk)⟩, hk⟩
    · rintro ⟨v, ⟨hv, hne⟩, hk⟩
      refine ⟨⟨v, hv, hk⟩, fun h => hne ?_⟩
      exact keys_inj t.size _ (symBelow_inj t.size) v w (Word_sym _ v (hS v hv))
        (Word_sym _ w hw) (hk ▸ h)
  · simp only [hd, decide_eq_true_eq] at hc1 ⊢
    rw [hc1, hcount]

theorem Refines_clear (size : Int) (hsize : 1 ≤ size) (S : List GoString) (t : Trie)
    (h : Refines size S t) :
    ∃ t', t.Clear = some t' ∧ Refines size (storedStep S .clear) t' := by
  obtain ⟨hsz, -⟩ := h
  subst hsz
  have : ¬ t.size < 1 := by omega
  exact ⟨⟨some (.mk 0 [] false), 0, t.size⟩, by simp [Trie.Clear, Trie.Init, this],
    Refines_init t.size⟩

theorem Refines_step (size : Int) (hsize : 1 ≤ size) (S : List GoString) (t : Trie) (op : Op)
    (h : Refines size S t) (hop : op.ok size) :
    ∃ t', t.step op = some t' ∧ Refines size (storedStep S op) t' := by
  cases op with
  | insert w => exact Refines_insert size hsize S t w h hop
  | delete w =>
    obtain ⟨t', hdel, href⟩ := Refines_delete size hsize S t w h hop
    exact ⟨t', by simp [Trie.step, hdel], href⟩
  | clear => exact Refines_clear size hsize S t h

theorem Refines_run (size : Int) (hsize : 1 ≤ size) (ops : List Op) (S : List GoString)
    (t : Trie) (h : Refines size S t) (hops : ∀ op ∈ ops, op.ok size) :
    ∃ t', run t ops = some t' ∧ Refines size (stored S ops) t' := by
  induction ops generalizing S t with
  | nil => exact ⟨t, rfl, h⟩
  | cons op rest ih =>
    obtain ⟨t1, hstep, href⟩ := Refines_step size hsize S t op h (hops op (List.mem_cons_self _ _))
    obtain ⟨t2, hrun, href2⟩ := ih _ t1 href (fun o ho => hops o (List.mem_cons_of_mem _ ho))
    exact ⟨t2, by simp [run, hstep, hrun], href2⟩

theorem Refines_reached (size : Int) (hsize : 1 ≤ size) (ops : List Op)
    (hops : ∀ op ∈ ops, op.ok size) :
    ∃ t0 t, Trie.new.Init size = some t0 ∧ run t0 ops = some t ∧
      Refines size (stored [] ops) t := by
  obtain ⟨t, hrun, href⟩ := Refines_run size hsize ops [] _ (Refines_init size) hops
  exact ⟨_, t, Init_new size hsize, hrun, href⟩

theorem Refines_Has (size : Int) (hsize : 1 ≤ size) (S : List GoString) (t : Trie)
    (w : GoString) (h : Refines size S t) (hw : Word size w) :
    t.Has w = some (decide (w ∈ S)) := by
  have hmemiff := fun r hroot => Refines_mem size S t r w h hroot hw
  obtain ⟨hsz, hnd, hS, hlen, r, hroot, hinv, hterm, hcount⟩ := h
  subst hsz
  have hsz0 : t.size ≠ 0 := by omega
  rw [Has_word t r _ w hroot hsz0 hinv (symBelow_inj t.size) hw.1 (Word_ascii _ w hw)
    (Word_sym _ w hw)]
  by_cases hmem : w ∈ S
  · simp [hmem, (hmemiff r hroot).2 hmem]
  · cases hx : terminal r (keys t.size w)
    · simp [hmem]
    · exact absurd ((hmemiff r hroot).1 hx) hmem

/-! ## Delete: the claims -/

/-- C2 (the code at the failing input): with the alphabet size 26 and the
lowercase word "a", whose only symbol 97 lies in bucket 19, the first
`Delete("a")` returns true but assigns `nil` under the key 97 and leaves the
node under the key 19: `Has("a")` is still true, and a second `Delete("a")`
returns true again and takes `Len()` to -1. -/
theorem Delete_twice_size26 :
    ∃ t0 t1 t2 t3, Trie.new.Init 26 = some t0 ∧ t0.Insert (str "a") = some t1 ∧
      t1.Delete (str "a") = some (t2, true) ∧ t2.Has (str "a") = some true ∧
      t2.Delete (str "a") = some (t3, true) ∧ t3.Len = -1 :=
  ⟨_, _, _, _, rfl, rfl, rfl, rfl, rfl, rfl⟩

/-- C3: for an alphabet size of at least 1, in every trie reached from
`Init(size)` by calls of `Insert`, `Delete` (and `Clear`) on non-empty ASCII
words with symbols below the size, and for two distinct such words `w` and `v`,
`Delete(w)` returns and `Has(v)` after it equals `Has(v)` before it; `Has(w)`
is false after it. -/
theorem Delete_keeps_other_words (size : Int) (ops : List Op) (w v : GoString)
    (hsize : 1 ≤ size) (hops : ∀ op ∈ ops, op.ok size) (hw : Word size w)
    (hv : Word size v) (hne : w ≠ v) :
    ∃ t0 t t' d b, Trie.new.Init size = some t0 ∧ run t0 ops = some t ∧
      t.Delete w = some (t', d) ∧ t.Has v = some b ∧ t'.Has v = some b ∧
      t'.Has w = some false := by
  obtain ⟨t0, t, hinit, hrun, href⟩ := Refines_reached size hsize ops hops
  obtain ⟨t', hdel, href'⟩ := Refines_delete size hsize _ t w href hw
  refine ⟨t0, t, t', _, _, hinit, hrun, hdel, Refines_Has size hsize _ t v href hv, ?_, ?_⟩
  · rw [Refines_Has size hsize _ t' v href' hv]
    simp [storedStep, List.mem_filter, Ne.symm hne]
  · rw [Refines_Has size hsize _ t' w href' hw]
    simp [storedStep, List.mem_filter]

theorem Delete_keeps_other_words_witness :
    (1 : Int) ≤ 128 ∧
    (∀ op ∈ [Op.insert (str "car"), Op.insert (str "cart")], op.ok 128) ∧
    Word 128 (str "car") ∧ Word 128 (str "cart") ∧ str "car" ≠ str "cart" ∧
    ∃ t0 t t' d b, Trie.new.Init 128 = some t0 ∧
      run t0 [Op.insert (str "car"), Op.insert (str "cart")] = some t ∧
      t.Delete (str "car") = some (t', d) ∧ t.Has (str "cart") = some b ∧
      t'.Has (str "cart") = some b ∧ t'.Has (str "car") = some false :=
  ⟨by decide, by decide, by decide, by decide, by decide,
    Delete_keeps_other_words 128 [Op.insert (str "car"), Op.insert (str "cart")] (str "car")
      (str "cart") (by decide) (by decide) (by decide) (by decide) (by decide)⟩

/-- C4: for an alphabet size of at least 1 and non-empty ASCII words `p` and `q`
with symbols below the size, `Init(size)`, `Insert(p)`, `Insert(p++q)` and
`Delete(p++q)` return, the `Delete` returns true, and afterwards `Has(p++q)` is
false, `Has(p)` is true and `Len()` is 1. -/
theorem Delete_longer_keeps_shorter (size : Int) (p q : GoString) (hsize : 1 ≤ size)
    (hp : Word size p) (hq : Word size q) :
    ∃ t0 t1 t2 t3, Trie.new.Init size = some t0 ∧ t0.Insert p = some t1 ∧
      t1.Insert (p ++ q) = some t2 ∧ t2.Delete (p ++ q) = some (t3, true) ∧
      t3.Has (p ++ q) = some false ∧ t3.Has p = some true ∧ t3.Len = 1 := by
  have hpq : Word size (p ++ q) := by
    refine ⟨by simp [hp.1], ?_⟩
    intro b hb
    rcases List.mem_append.1 hb with h | h
    · exact hp.2 b h
    · exact hq.2 b h
  have hne : p ++ q ≠ p := by
    intro h
    have := congrArg List.length h
    simp only [List.length_append] at this
    have hq0 : q.length ≠ 0 := fun h0 => hq.1 (List.length_eq_zero.1 h0)
    omega
  obtain ⟨t1, h1, href1⟩ := Refines_insert size hsize [] _ p (Refines_init size) hp
  obtain ⟨t2, h2, href2⟩ := Refines_insert size hsize _ t1 (p ++ q) href1 hpq
  obtain ⟨t3, h3, href3⟩ := Refines_delete size hsize _ t2 (p ++ q) href2 hpq
  have hS : storedStep (storedStep (storedStep [] (.insert p)) (.insert (p ++ q)))
      (.delete (p ++ q)) = [p] := by
    simp [storedStep, hne, Ne.symm hne]
  rw [hS] at href3
  refine ⟨_, t1, t2, t3, Init_new size hsize, h1, h2, ?_, ?_, ?_, ?_⟩
  · rw [h3]
    simp [storedStep, hne]
  · rw [Refines_Has size hsize _ t3 (p ++ q) href3 hpq]
    simp [hne]
  · rw [Refines_Has size hsize _ t3 p href3 hp]
    simp
  · obtain ⟨-, -, -, hlen, -⟩ := href3
    simpa [Trie.Len] using hlen

theorem Delete_longer_keeps_shorter_witness :
    (1 : Int) ≤ 128 ∧ Word 128 (str "foo") ∧ Word 128 (str "bar") ∧
    ∃ t0 t1 t2 t3, Trie.new.Init 128 = some t0 ∧ t0.Insert (str "foo") = some t1 ∧
      t1.Insert (str "foo" ++ str "bar") = some t2 ∧
      t2.Delete (str "foo" ++ str "bar") = some (t3, true) ∧
      t3.Has (str "foo" ++ str "bar") = some false ∧ t3.Has (str "foo") = some true ∧
      t3.Len = 1 :=
  ⟨by decide, by decide, by decide,
    Delete_longer_keeps_shorter 128 (str "foo") (str "bar") (by decide) (by decide)
      (by decide)⟩

/-! ## The counter -/

/-- C9: for an alphabet size of at least 1, in every state reached from
`Init(size)` on a new trie by calls of `Insert`, `Delete` and `Clear` on
non-empty ASCII words with symbols below the size, `Len()` is the number of
nodes of the tree under the root that are marked `end`, and so is not
negative. -/
theorem Len_eq_marked_nodes (size : Int) (ops : List Op) (hsize : 1 ≤ size)
    (hops : ∀ op ∈ ops, op.ok size) :
    ∃ t0 t r, Trie.new.Init size = some t0 ∧ run t0 ops = some t ∧ t.root = some r ∧
      t.Len = (countEnd r : Int) ∧ 0 ≤ t.Len := by
  obtain ⟨t0, t, hinit, hrun, href⟩ := Refines_reached size hsize ops hops
  obtain ⟨-, -, -, -, r, hroot, -, -, hcount⟩ := href
  refine ⟨t0, t, r, hinit, hrun, hroot, hcount, ?_⟩
  simp only [Trie.Len, hcount]
  exact Int.ofNat_nonneg _

theorem Len_eq_marked_nodes_witness :
    (1 : Int) ≤ 128 ∧
    (∀ op ∈ [Op.insert (str "ab"), Op.insert (str "a"), Op.delete (str "ab"), Op.clear,
      Op.insert (str "b")], op.ok 128) ∧
    ∃ t0 t r, Trie.new.Init 128 = some t0 ∧
      run t0 [Op.insert (str "ab"), Op.insert (str "a"), Op.delete (str "ab"), Op.clear,
        Op.insert (str "b")] = some t ∧
      t.root = some r ∧ t.Len = (countEnd r : Int) ∧ 0 ≤ t.Len :=
  ⟨by decide, by decide,
    Len_eq_marked_nodes 128 [Op.insert (str "ab"), Op.insert (str "a"), Op.delete (str "ab"),
      Op.clear, Op.insert (str "b")] (by decide) (by decide)⟩

/-! ## The function match -/

theorem matchNode_eq (n : node) (s : GoString) :
    matchNode n s = (if n.isEnd then [s] else []) ++ matchNodes n.nodes s := by
  cases n
  simp [matchNode]

theorem mem_matchNodes (m : nodeMap) (s x : GoString) :
    x ∈ matchNodes m s ↔ ∃ k c, (k, some c) ∈ m ∧ x ∈ matchNode c (s ++ runeString c.char) := by
  induction m with
  | nil => simp [matchNodes]
  | cons e rest ih =>
    obtain ⟨k, v⟩ := e
    cases v with
    | none =>
      simp only [matchNodes, ih, List.mem_cons, Prod.mk.injEq]
      constructor
      · rintro ⟨k', c, h, hx⟩
        exact ⟨k', c, Or.inr h, hx⟩
      · rintro ⟨k', c, h | h, hx⟩
        · simp at h
        · exact ⟨k', c, h, hx⟩
    | some c0 =>
      simp only [matchNodes, List.mem_append, ih, List.mem_cons, Prod.mk.injEq]
      constructor
      · rintro (h | ⟨k', c, h, hx⟩)
        · exact ⟨k, c0, Or.inl ⟨rfl, rfl⟩, h⟩
        · exact ⟨k', c, Or.inr h, hx⟩
      · rintro ⟨k', c, h | h, hx⟩
        · simp only [Option.some.injEq] at h
          obtain ⟨-, rfl⟩ := h
          exact Or.inl hx
        · exact Or.inr ⟨k', c, h, hx⟩

theorem runeString_ascii (c : Int) (h : symBelow 128 c) : runeString c = [c.toNat] := by
  have h0 : ¬ c < 0 := by
    have := h.1
    omega
  simp [runeString, h0, h.2.1]

theorem symBelow_toNat (size c : Int) (h : symBelow size c) :
    ((c.toNat : Nat) : Int) = c ∧ c.toNat < 128 := by
  have h0 := h.1
  have h1 := h.2.2
  constructor
  · exact Int.toNat_of_nonneg h0
  · omega

theorem symBelow_128 (size c : Int) (h : symBelow size c) : symBelow 128 c :=
  ⟨h.1, h.2.2, h.2.2⟩

theorem mem_matchNode (size : Int) (n : node) (hinv : Inv size (symBelow size) n)
    (s x : GoString) :
    x ∈ matchNode n s ↔
      ∃ u : GoString, (∀ b ∈ u, b < 128 ∧ (b : Int) < size) ∧
        terminal n (u.map Int.ofNat) = true ∧ x = s ++ u := by
  induction hinv generalizing s x with
  | mk c m e hnd hsym hchild ih =>
    rw [matchNode_eq, List.mem_append, mem_matchNodes]
    simp only [isEnd_mk, nodes_mk]
    constructor
    · rintro (h | ⟨k, c', hmem, hx⟩)
      · refine ⟨[], by simp, ?_, ?_⟩
        · cases e <;> simp_all [terminal_nil]
        · cases e <;> simp_all
      · obtain ⟨u', hu', ht, rfl⟩ := (ih k c' hmem _ x).1 hx
        have hs := (hsym k c' hmem).1
        have hk : c'.char = k := by
          rw [← symBelow_tmod size _ hs]
          exact (hsym k c' hmem).2
        have hn := symBelow_toNat size _ hs
        refine ⟨c'.char.toNat :: u', ?_, ?_, ?_⟩
        · intro b hb
          rcases List.mem_cons.1 hb with h | h
          · subst h
            refine ⟨hn.2, ?_⟩
            rw [hn.1]
            exact hs.2.1
          · exact hu' b h
        · have hget : mapGet m c'.char = some c' := by
            rw [hk]
            exact mem_mapGet m k c' hnd hmem
          have hcast : Int.ofNat c'.char.toNat = c'.char := hn.1
          simp only [List.map_cons, terminal_cons, nodes_mk, hcast, hget]
          exact ht
        · rw [runeString_ascii _ (symBelow_128 size _ hs)]
          simp
    · rintro ⟨u, hu, ht, rfl⟩
      cases u with
      | nil =>
        left
        simp only [List.map_nil, terminal_nil, isEnd_mk] at ht
        simp [ht]
      | cons b u' =>
        right
        simp only [List.map_cons, terminal_cons, nodes_mk] at ht
        cases hget : mapGet m (b : Int) with
        | none =>
          have ht' : (match mapGet m (b : Int) with
            | none => false
            | some c => terminal c (List.map Int.ofNat u')) = true := ht
          rw [hget] at ht'
          simp at ht'
        | some c' =>
          have ht' : (match mapGet m (b : Int) with
            | none => false
            | some c => terminal c (List.map Int.ofNat u')) = true := ht
          rw [hget] at ht'
          replace ht : terminal c' (List.map Int.ofNat u') = true := ht'
          have hmem := mapGet_mem m _ c' hget
          have hs := (hsym _ c' hmem).1
          have hk : c'.char = (b : Int) := by
            rw [← symBelow_tmod size _ hs]
            exact (hsym _ c' hmem).2
          refine ⟨_, c', hmem, (ih _ c' hmem _ _).2 ⟨u', ?_, ht, ?_⟩⟩
          · exact fun x hx => hu x (List.mem_cons_of_mem _ hx)
          · rw [runeString_ascii _ (symBelow_128 size _ hs), hk]
            simp

theorem nodup_matchNodes (size : Int) (s : GoString) (m : nodeMap)
    (hnd : (m.map Prod.fst).Nodup)
    (hsym : ∀ k n, (k, some n) ∈ m → symBelow size n.char ∧ Int.tmod n.char size = k)
    (hinv : ∀ k n, (k, some n) ∈ m → Inv size (symBelow size) n)
    (ih : ∀ k n, (k, some n) ∈ m → ∀ s : GoString, (matchNode n s).Nodup) :
    (matchNodes m s).Nodup := by
  induction m with
  | nil => simp [matchNodes]
  | cons e rest ihm =>
    obtain ⟨k, v⟩ := e
    simp only [List.map_cons, List.nodup_cons] at hnd
    have hrest := ihm hnd.2 (fun k n h => hsym k n (List.mem_cons_of_mem _ h))
      (fun k n h => hinv k n (List.mem_cons_of_mem _ h))
      (fun k n h => ih k n (List.mem_cons_of_mem _ h))
    cases v with
    | none => simpa [matchNodes] using hrest
    | some c =>
      simp only [matchNodes]
      have hc := hsym k c (List.mem_cons_self _ _)
      refine List.Nodup.append (ih k c (List.mem_cons_self _ _) _) hrest ?_
      intro x hx1 hx2
      obtain ⟨u, -, -, hxu⟩ := (mem_matchNode size c (hinv k c (List.mem_cons_self _ _)) _ x).1 hx1
      obtain ⟨k', c', hmem', hx'⟩ := (mem_matchNodes rest s x).1 hx2
      have hc' := hsym k' c' (List.mem_cons_of_mem _ hmem')
      obtain ⟨u', -, -, hxu'⟩ :=
        (mem_matchNode size c' (hinv k' c' (List.mem_cons_of_mem _ hmem')) _ x).1 hx'
      rw [runeString_ascii _ (symBelow_128 size _ hc.1)] at hxu
      rw [runeString_ascii _ (symBelow_128 size _ hc'.1)] at hxu'
      rw [hxu] at hxu'
      simp only [List.append_assoc, List.singleton_append, List.append_cancel_left_eq,
        List.cons.injEq] at hxu'
      have hchar : c.char = c'.char := by
        rw [← (symBelow_toNat size _ hc.1).1, ← (symBelow_toNat size _ hc'.1).1, hxu'.1]
      have hkk : k = k' := by
        rw [← hc.2, ← hc'.2, hchar]
      apply hnd.1
      rw [hkk]
      exact List.mem_map.2 ⟨(k', some c'), hmem', rfl⟩

theorem nodup_matchNode (size : Int) (n : node) (hinv : Inv size (symBelow size) n)
    (s : GoString) : (matchNode n s).Nodup := by
  induction hinv generalizing s with
  | mk c m e hnd hsym hchild ih =>
    rw [matchNode_eq]
    simp only [isEnd_mk, nodes_mk]
    have hms := nodup_matchNodes size s m hnd hsym hchild ih
    refine List.Nodup.append (by split <;> simp) hms ?_
    intro x hx1 hx2
    have hxs : x = s := by
      cases e <;> simp_all
    obtain ⟨k', c', hmem', hx'⟩ := (mem_matchNodes m s x).1 hx2
    obtain ⟨u', -, -, hxu'⟩ := (mem_matchNode size c' (hchild k' c' hmem') _ x).1 hx'
    rw [runeString_ascii _ (symBelow_128 size _ (hsym k' c' hmem').1), hxs] at hxu'
    have := congrArg List.length hxu'
    simp at this

/-! ## StartsWith -/

theorem keys_append (size : Int) (p u : GoString) :
    keys size (p ++ u) = keys size p ++ keys size u := by
  simp [keys]

theorem keys_below (size : Int) (u : GoString) (hu : ∀ b ∈ u, b < 128 ∧ (b : Int) < size) :
    keys size u = u.map Int.ofNat := by
  induction u with
  | nil => rfl
  | cons b rest ih =>
    simp only [keys, List.map_cons, List.cons.injEq]
    refine ⟨?_, ih (fun x hx => hu x (List.mem_cons_of_mem _ hx))⟩
    exact Int.tmod_eq_of_lt (Int.ofNat_nonneg b) (hu b (List.mem_cons_self _ _)).2

theorem StartsWith_word (size : Int) (hsize : 1 ≤ size) (S : List GoString) (t : Trie)
    (p : GoString) (h : Refines size S t) (hp : Word size p) :
    ∃ l, t.StartsWith p = some l ∧ l.Nodup ∧ ∀ w, w ∈ l ↔ (w ∈ S ∧ p <+: w) := by
  have hmemiff := fun r hroot w hw => Refines_mem size S t r w h hroot hw
  obtain ⟨hsz, hnd, hS, hlen, r, hroot, hinv, hterm, hcount⟩ := h
  subst hsz
  have hsz0 : t.size ≠ 0 := by omega
  obtain ⟨n0, h0, htr⟩ := traverse_word t r _ p hroot hsz0 hinv (symBelow_inj t.size) hp.1
    (Word_ascii _ p hp) (Word_sym _ p hp)
  have hstored : ∀ u, p ++ u ∈ S →
      (∀ b ∈ u, b < 128 ∧ (b : Int) < t.size) ∧
      (match nodeAt r (keys t.size p) with
       | none => false
       | some n => terminal n (u.map Int.ofNat)) = true := by
    intro u hu
    have hw := hS _ hu
    have hval : ∀ b ∈ u, b < 128 ∧ (b : Int) < t.size :=
      fun b hb => hw.2 b (List.mem_append_right _ hb)
    refine ⟨hval, ?_⟩
    have := (hmemiff r hroot _ hw).2 hu
    rwa [keys_append, terminal_append, keys_below _ u hval] at this
  cases hn : nodeAt r (keys t.size p) with
  | none =>
    refine ⟨[], by simp [Trie.StartsWith, h0, htr, hn, matchPtr], List.nodup_nil, ?_⟩
    intro w
    simp only [List.not_mem_nil, false_iff, not_and]
    rintro hw ⟨u, rfl⟩
    have := (hstored u hw).2
    simp [hn] at this
  | some n =>
    have hinvn := Inv_nodeAt _ _ r n _ hinv hn
    refine ⟨matchNode n p, by simp [Trie.StartsWith, h0, htr, hn, matchPtr],
      nodup_matchNode t.size n hinvn p, ?_⟩
    intro w
    rw [mem_matchNode t.size n hinvn p w]
    constructor
    · rintro ⟨u, hu, ht, rfl⟩
      have hw : Word t.size (p ++ u) := by
        refine ⟨by simp [hp.1], ?_⟩
        intro b hb
        rcases List.mem_append.1 hb with h | h
        · exact hp.2 b h
        · exact hu b h
      refine ⟨(hmemiff r hroot _ hw).1 ?_, List.prefix_append _ _⟩
      rw [keys_append, terminal_append, hn, keys_below _ u hu]
      exact ht
    · rintro ⟨hw, u, rfl⟩
      have := hstored u hw
      rw [hn] at this
      exact ⟨u, this.1, this.2, rfl⟩

/-- C6: for an alphabet size of at least 1, in every trie reached from
`Init(size)` by calls of `Insert`, `Delete` (and `Clear`) on non-empty ASCII
words with symbols below the size, and for every non-empty such word `p`,
`StartsWith(p)` returns a collection without duplicates whose elements are
exactly the words stored at that moment (inserted and not deleted since) that
begin with `p`; it is empty when no stored word begins with `p`. -/
theorem StartsWith_exact (size : Int) (ops : List Op) (p : GoString) (hsize : 1 ≤ size)
    (hops : ∀ op ∈ ops, op.ok size) (hp : Word size p) :
    ∃ t0 t l, Trie.new.Init size = some t0 ∧ run t0 ops = some t ∧
      t.StartsWith p = some l ∧ l.Nodup ∧
      (∀ w, w ∈ l ↔ (w ∈ stored [] ops ∧ p <+: w)) ∧
      ((∀ w ∈ stored [] ops, ¬ p <+: w) → l = []) := by
  obtain ⟨t0, t, hinit, hrun, href⟩ := Refines_reached size hsize ops hops
  obtain ⟨l, hl, hnd, hmem⟩ := StartsWith_word size hsize _ t p href hp
  refine ⟨t0, t, l, hinit, hrun, hl, hnd, hmem, ?_⟩
  intro hno
  apply List.eq_nil_iff_forall_not_mem.2
  intro w hw
  exact hno w ((hmem w).1 hw).1 ((hmem w).1 hw).2

theorem StartsWith_exact_witness :
    (1 : Int) ≤ 128 ∧
    (∀ op ∈ [Op.insert (str "car"), Op.insert (str "cart"), Op.insert (str "care"),
      Op.insert (str "dog")], op.ok 128) ∧
    Word 128 (str "car") ∧
    ∃ t0 t l, Trie.new.Init 128 = some t0 ∧
      run t0 [Op.insert (str "car"), Op.insert (str "cart"), Op.insert (str "care"),
        Op.insert (str "dog")] = some t ∧
      t.StartsWith (str "car") = some l ∧ l.Nodup ∧
      (∀ w, w ∈ l ↔ (w ∈ stored [] [Op.insert (str "car"), Op.insert (str "cart"),
        Op.insert (str "care"), Op.insert (str "dog")] ∧ str "car" <+: w)) ∧
      ((∀ w ∈ stored [] [Op.insert (str "car"), Op.insert (str "cart"),
        Op.insert (str "care"), Op.insert (str "dog")], ¬ str "car" <+: w) → l = []) :=
  ⟨by decide, by decide, by decide,
    StartsWith_exact 128 [Op.insert (str "car"), Op.insert (str "cart"),
      Op.insert (str "care"), Op.insert (str "dog")] (str "car") (by decide) (by decide)
      (by decide)⟩

/-! ## The instances of the specification, evaluated -/

/-- The prefix instance of the specification, evaluated: after the insertion of
"car", "cart", "care" and "dog" with the alphabet size 128, `StartsWith("car")`
returns "car", "cart" and "care", and `StartsWith("d")` returns "dog". -/
theorem StartsWith_car_dog :
    ∃ t0 t, Trie.new.Init 128 = some t0 ∧
      run t0 [Op.insert (str "car"), Op.insert (str "cart"), Op.insert (str "care"),
        Op.insert (str "dog")] = some t ∧
      t.StartsWith (str "car") = some [str "car", str "cart", str "care"] ∧
      t.StartsWith (str "d") = some [str "dog"] :=
  ⟨_, _, rfl, rfl, by decide, by decide⟩

/-- The shared prefix instance of the specification, evaluated: after the
insertion of "car" and "cart" with the alphabet size 128, `Delete("car")`
returns true and leaves `Has("cart")` true and `Has("car")` false. -/
theorem Delete_car_keeps_cart :
    ∃ t0 t t', Trie.new.Init 128 = some t0 ∧
      run t0 [Op.insert (str "car"), Op.insert (str "cart")] = some t ∧
      t.Delete (str "car") = some (t', true) ∧ t'.Has (str "cart") = some true ∧
      t'.Has (str "car") = some false :=
  ⟨_, _, _, rfl, rfl, rfl, rfl, rfl⟩

/-! ## Init -/

/-- C11: for every integer size, `Init(size)` fails if and only if `size < 1`;
a failing `Init` leaves the trie (root, word count, alphabet size) as it was,
and a successful `Init` leaves the trie with the given alphabet size, a root
without children and the word count it had. -/
theorem Init_fails_iff (t : Trie) (size : Int) :
    (t.Init size = none ↔ size < 1) ∧
    (t.Init size = none → t.afterInit size = t) ∧
    (∀ t', t.Init size = some t' →
      t.afterInit size = t' ∧ t'.size = size ∧ t'.words = t.words ∧
      ∃ r, t'.root = some r ∧ r.nodes.length = 0) := by
  by_cases h : size < 1
  · simp [Trie.Init, Trie.afterInit, h]
  · refine ⟨by simp [Trie.Init, h], by simp [Trie.Init, h], ?_⟩
    intro t' ht'
    simp only [Trie.Init, h, if_false, Option.some.injEq] at ht'
    subst ht'
    exact ⟨by simp [Trie.afterInit, h], rfl, rfl, _, rfl, rfl⟩

theorem Has_fresh_root (words size : Int) (hsize : size ≠ 0) (s : GoString) (hs : s ≠ []) :
    (Trie.mk (some (.mk 0 [] false)) words size).Has s = some false := by
  cases s with
  | nil => exact absurd rfl hs
  | cons b rest =>
    obtain ⟨c, cs, hcs⟩ := rangeString_cons b rest
    simp [Trie.Has, Trie.start, hsize, ref.next, node.next, mapGet, traverse, hcs, traverseLoop]

/-- What `Init` does to a trie that was in use: for every trie and every size
of at least 1, `Init(size)` returns and discards the prior content, so that
`Has(w)` is false for every non-empty word `w`, and it sets the alphabet size;
`Len()` is what it was before the call, since `words` is not assigned. -/
theorem Init_keeps_Len (t : Trie) (size : Int) (hsize : 1 ≤ size) :
    ∃ t', t.Init size = some t' ∧ t'.Len = t.Len ∧ t'.size = size ∧
      ∀ s : GoString, s ≠ [] → t'.Has s = some false := by
  have h : ¬ size < 1 := by omega
  have h0 : size ≠ 0 := by omega
  refine ⟨⟨some (.mk 0 [] false), t.words, size⟩, by simp [Trie.Init, h], rfl, rfl, ?_⟩
  intro s hs
  exact Has_fresh_root t.words size h0 s hs

theorem Init_keeps_Len_witness :
    (1 : Int) ≤ 26 ∧
    ∃ t', (Trie.mk (some (.mk 0 [(97, some (.mk 97 [] true))] false)) 1 128).Init 26 = some t' ∧
      t'.Len = (Trie.mk (some (.mk 0 [(97, some (.mk 97 [] true))] false)) 1 128).Len ∧
      t'.size = 26 ∧ ∀ s : GoString, s ≠ [] → t'.Has s = some false :=
  ⟨by decide, Init_keeps_Len _ 26 (by decide)⟩

/-- C12 (the code at the failing input): a trie that holds the one word "a" has
`Len()` 1, and after `Init(26)` on it the root has no children and `Has("a")` is
false, but `Len()` is still 1, not 0: `Init` does not assign `words`, which
`Clear` does after its call of `Init`. -/
theorem Init_does_not_reset_Len :
    ∃ t0 t1 t2, Trie.new.Init 26 = some t0 ∧ t0.Insert (str "a") = some t1 ∧ t1.Len = 1 ∧
      t1.Init 26 = some t2 ∧ t2.root = some (.mk 0 [] false) ∧
      t2.Has (str "a") = some false ∧ t2.Len = 1 ∧ t2.Len ≠ 0 :=
  ⟨_, _, _, rfl, rfl, rfl, rfl, rfl, rfl, rfl, by decide⟩

/-! ## The code at the inputs where it departs from the specification -/

/-- C13 (the code at the failing input): on the trie that holds the word "a",
`Has("")` and `Delete("")` panic, in `start`, on the index `s[0]`. -/
theorem Has_Delete_empty_word :
    ∃ t0 t, Trie.new.Init 128 = some t0 ∧ t0.Insert (str "a") = some t ∧
      t.start [] = none ∧ t.Has [] = none ∧ t.Delete [] = none :=
  ⟨_, _, rfl, rfl, rfl, rfl, rfl⟩

/-- C14 (the code at the failing input): the word "é" is the two bytes C3 A9
of the code point 233. With the alphabet size 1000, `Insert("é")` stores a node
for 233 without marking it (the offset 0 is not `len(s)-1 = 1`) and does not
count it, and `Has("é")` looks under the byte 195: `Has("é")` is false and
`Len()` is 0. The same holds for "añ". -/
theorem Insert_two_byte_symbol :
    str "é" = [0xC3, 0xA9] ∧ rangeString (str "é") = [(0, 233)] ∧
    ∃ t0 t t', Trie.new.Init 1000 = some t0 ∧
      t0.Insert (str "é") = some t ∧ t.Has (str "é") = some false ∧ t.Len = 0 ∧
      t0.Insert (str "añ") = some t' ∧ t'.Has (str "añ") = some false ∧ t'.Len = 0 :=
  ⟨by decide, by decide, _, _, _, rfl, rfl, rfl, rfl, rfl, rfl, rfl⟩

/-- C15 (the code at the failing input): after `Init(1)` and `Insert("a")`,
`traverse` for "b" starts at the node of "a", finds that its symbol 97 is not
98, and returns that node; `Has("b")` is true. -/
theorem Has_b_after_Insert_a :
    ∃ t0 t n0 r, Trie.new.Init 1 = some t0 ∧ t0.Insert (str "a") = some t ∧
      t.start (str "b") = some n0 ∧ traverse n0 (str "b") 1 = some (some r) ∧
      r.nd.char = 97 ∧ t.Has (str "b") = some true :=
  ⟨_, _, _, _, rfl, rfl, rfl, rfl, rfl, rfl⟩

/-- C16 (the code at the failing input): with the alphabet size 128, after
`Insert("ab")` and `Delete("ab")` the root still has the child node of "a",
which is not marked and whose only map entry is nil; and after `Insert("foo")`,
`Insert("foobar")` and `Delete("foobar")` the node reached by "foo" still has
the child node of "b". -/
theorem Delete_leaves_dead_nodes :
    (∃ t0 t1 t2, Trie.new.Init 128 = some t0 ∧ t0.Insert (str "ab") = some t1 ∧
      t1.Delete (str "ab") = some (t2, true) ∧
      t2.root = some (.mk 0 [(97, some (.mk 97 [(98, none)] false))] false)) ∧
    (∃ t0 t1 t2 t3 r n, Trie.new.Init 128 = some t0 ∧ t0.Insert (str "foo") = some t1 ∧
      t1.Insert (str "foobar") = some t2 ∧ t2.Delete (str "foobar") = some (t3, true) ∧
      t3.root = some r ∧ nodeAt r (keys 128 (str "foo")) = some n ∧
      mapGet n.nodes 98 = some (.mk 98 [(97, some (.mk 97 [(114, none)] false))] false)) :=
  ⟨⟨_, _, _, rfl, rfl, rfl, rfl⟩, ⟨_, _, _, _, _, _, rfl, rfl, rfl, rfl, rfl, rfl, rfl⟩⟩

/-! ## Calls on an initialised trie return -/

theorem Insert_initialised (t : Trie) (s : GoString) (h : t.initialised) :
    ∃ t', t.Insert s = some t' ∧ t'.initialised := by
  have hsz : t.size ≠ 0 := by
    have := h.2
    omega
  cases hroot : t.root with
  | none =>
    have := h.1
    simp [hroot] at this
  | some r => exact ⟨_, Insert_eq t r s hroot hsz, rfl, h.2⟩

theorem Delete_initialised (t : Trie) (s : GoString) (h : t.initialised) (hs : s ≠ []) :
    ∃ t' d, t.Delete s = some (t', d) ∧ t'.initialised := by
  have hsz : t.size ≠ 0 := by
    have := h.2
    omega
  cases hroot : t.root with
  | none =>
    have := h.1
    simp [hroot] at this
  | some root =>
    obtain ⟨n0, res, h0, htr, hval⟩ := traverse_valid t root s hroot hsz hs
    by_cases hres : ∀ x, res = some x → x.nd.isEnd = false
    · exact ⟨_, _, Delete_absent t root s n0 res hroot h0 htr hres, rfl, h.2⟩
    · cases res with
      | none => simp at hres
      | some r =>
        have he : r.nd.isEnd = true := by
          cases hx : r.nd.isEnd
          · exact absurd (fun x hx' => by cases hx'; exact hx) hres
          · rfl
        exact ⟨_, _, Delete_eq t root s n0 r hroot h0 htr (hval r rfl) he, rfl, h.2⟩

theorem Has_returns (t : Trie) (s : GoString) (h : t.initialised) (hs : s ≠ []) :
    ∃ b, t.Has s = some b := by
  have hsz : t.size ≠ 0 := by
    have := h.2
    omega
  cases hroot : t.root with
  | none =>
    have := h.1
    simp [hroot] at this
  | some root =>
    obtain ⟨n0, res, h0, htr, -⟩ := traverse_valid t root s hroot hsz hs
    cases res with
    | none => exact ⟨false, by simp [Trie.Has, h0, htr]⟩
    | some r => exact ⟨r.nd.isEnd, by simp [Trie.Has, h0, htr]⟩

theorem StartsWith_returns (t : Trie) (s : GoString) (h : t.initialised) (hs : s ≠ []) :
    ∃ l, t.StartsWith s = some l := by
  have hsz : t.size ≠ 0 := by
    have := h.2
    omega
  cases hroot : t.root with
  | none =>
    have := h.1
    simp [hroot] at this
  | some root =>
    obtain ⟨n0, res, h0, htr, -⟩ := traverse_valid t root s hroot hsz hs
    exact ⟨matchPtr res s, by simp [Trie.StartsWith, h0, htr]⟩

theorem call_initialised (t : Trie) (c : Call) (h : t.initialised) (hc : c.word ≠ []) :
    ∃ t', t.call c = some t' ∧ t'.initialised := by
  cases c with
  | insert w => exact Insert_initialised t w h
  | delete w =>
    obtain ⟨t', d, hdel, hinit⟩ := Delete_initialised t w h hc
    exact ⟨t', by simp [Trie.call, hdel], hinit⟩
  | has w =>
    obtain ⟨b, hb⟩ := Has_returns t w h hc
    exact ⟨t, by simp [Trie.call, hb], h⟩
  | startsWith w =>
    obtain ⟨l, hl⟩ := StartsWith_returns t w h hc
    exact ⟨t, by simp [Trie.call, hl], h⟩

theorem runCalls_initialised (t : Trie) (calls : List Call) (h : t.initialised)
    (hw : ∀ c ∈ calls, c.word ≠ []) :
    ∃ t', runCalls t calls = some t' ∧ t'.initialised := by
  induction calls generalizing t with
  | nil => exact ⟨t, rfl, h⟩
  | cons c rest ih =>
    obtain ⟨t1, h1, hinit1⟩ := call_initialised t c h (hw c (List.mem_cons_self _ _))
    obtain ⟨t2, h2, hinit2⟩ := ih t1 hinit1 (fun x hx => hw x (List.mem_cons_of_mem _ hx))
    exact ⟨t2, by simp [runCalls, h1, h2], hinit2⟩

/-- C17: for every alphabet size of at least 1, with or without bucket
collisions, and every sequence of `Insert`, `Delete`, `Has` and `StartsWith`
calls with non-empty words on a trie initialised by `Init(size)`, every call
returns: none of them panics on a nil node, on a string index or in the loop of
`Delete`, which ends because it is a recursion on the length of the key path. -/
theorem calls_return (t : Trie) (size : Int) (calls : List Call) (hsize : 1 ≤ size)
    (hw : ∀ c ∈ calls, c.word ≠ []) :
    ∃ t0 t', t.Init size = some t0 ∧ runCalls t0 calls = some t' ∧ t'.initialised := by
  have h : ¬ size < 1 := by omega
  obtain ⟨t', hrun, hinit⟩ := runCalls_initialised ⟨some (.mk 0 [] false), t.words, size⟩ calls
    ⟨rfl, hsize⟩ hw
  exact ⟨_, t', by simp [Trie.Init, h], hrun, hinit⟩

theorem calls_return_witness :
    (1 : Int) ≤ 1 ∧
    (∀ c ∈ [Call.insert (str "ab"), Call.insert (str "é"), Call.has (str "ba"),
      Call.delete (str "zz"), Call.startsWith (str "x"), Call.delete (str "a")],
      c.word ≠ []) ∧
    ∃ t0 t', Trie.new.Init 1 = some t0 ∧
      runCalls t0 [Call.insert (str "ab"), Call.insert (str "é"), Call.has (str "ba"),
        Call.delete (str "zz"), Call.startsWith (str "x"), Call.delete (str "a")] = some t' ∧
      t'.initialised :=
  ⟨by decide, by decide, calls_return Trie.new 1 _ (by decide) (by decide)⟩

/-! ## Has and StartsWith -/

theorem runeString_ne_nil (r : Int) : runeString r ≠ [] := by
  unfold runeString
  repeat' split
  all_goals simp

mutual
theorem matchNode_length : ∀ (n : node) (s x : GoString),
    x ∈ matchNode n s → s.length ≤ x.length
  | .mk c m e, s, x, h => by
    simp only [matchNode, List.mem_append] at h
    rcases h with h | h
    · cases e <;> simp_all
    · exact Nat.le_of_lt (matchNodes_length m s x h)
theorem matchNodes_length : ∀ (m : nodeMap) (s x : GoString),
    x ∈ matchNodes m s → s.length < x.length
  | [], s, x, h => by simp [matchNodes] at h
  | (_, none) :: rest, s, x, h => by
    simp only [matchNodes] at h
    exact matchNodes_length rest s x h
  | (_, some c) :: rest, s, x, h => by
    simp only [matchNodes, List.mem_append] at h
    rcases h with h | h
    · have := matchNode_length c _ x h
      have hne := runeString_ne_nil c.char
      have : 0 < (runeString c.char).length := List.length_pos.2 hne
      simp only [List.length_append] at *
      omega
    · exact matchNodes_length rest s x h
end

theorem mem_matchNode_self (n : node) (s : GoString) :
    s ∈ matchNode n s ↔ n.isEnd = true := by
  rw [matchNode_eq, List.mem_append]
  constructor
  · rintro (h | h)
    · cases he : n.isEnd
      · simp [he] at h
      · rfl
    · exact absurd (matchNodes_length n.nodes s s h) (Nat.lt_irrefl _)
  · intro h
    simp [h]

/-- C18: on an initialised trie in any state, with any alphabet size and with
or without bucket collisions, for a non-empty word `w` the calls `Has(w)` and
`StartsWith(w)` return, and `Has(w)` is true if and only if `w` is an element
of `StartsWith(w)`. -/
theorem Has_iff_mem_StartsWith (t : Trie) (w : GoString) (h : t.initialised)
    (hw : w ≠ []) :
    ∃ b l, t.Has w = some b ∧ t.StartsWith w = some l ∧ (b = true ↔ w ∈ l) := by
  have hsz : t.size ≠ 0 := by
    have := h.2
    omega
  cases hroot : t.root with
  | none =>
    have := h.1
    simp [hroot] at this
  | some root =>
    obtain ⟨n0, res, h0, htr, -⟩ := traverse_valid t root w hroot hsz hw
    cases res with
    | none =>
      exact ⟨false, [], by simp [Trie.Has, h0, htr], by simp [Trie.StartsWith, h0, htr, matchPtr],
        by simp⟩
    | some r =>
      exact ⟨r.nd.isEnd, matchNode r.nd w, by simp [Trie.Has, h0, htr],
        by simp [Trie.StartsWith, h0, htr, matchPtr], (mem_matchNode_self r.nd w).symm⟩

theorem Has_iff_mem_StartsWith_witness :
    (Trie.mk (some (.mk 0 [(0, some (.mk 97 [(0, some (.mk 98 [] true))] true))] false)) 2
      1).initialised ∧
    str "b" ≠ [] ∧
    ∃ b l, (Trie.mk (some (.mk 0 [(0, some (.mk 97 [(0, some (.mk 98 [] true))] true))] false)) 2
        1).Has (str "b") = some b ∧
      (Trie.mk (some (.mk 0 [(0, some (.mk 97 [(0, some (.mk 98 [] true))] true))] false)) 2
        1).StartsWith (str "b") = some l ∧
      (b = true ↔ str "b" ∈ l) :=
  ⟨by decide, by decide, Has_iff_mem_StartsWith _ _ (by decide) (by decide)⟩

/-! ## Has for a query word that is not ASCII -/

/-- C1 (the code at the failing input): with the alphabet size 128 and the one
inserted word "C", the query word "é" (the code point 233, the bytes C3 A9) is
not an inserted word, and the symbols 67 and 233 lie in the distinct buckets 67
and 105. `start` reads the byte 195, whose bucket is 67, and finds the node of
"C"; `traverse` sees that its symbol 67 is not 233 and returns that node, which
is marked: `Has("é")` is true. -/
theorem Has_absent_two_byte_word :
    str "é" ∉ [str "C"] ∧ rangeString (str "é") = [(0, 233)] ∧
    rangeString (str "C") = [(0, 67)] ∧ Int.tmod 67 128 ≠ Int.tmod 233 128 ∧
    ∃ t0 t n0 r, Trie.new.Init 128 = some t0 ∧
      run t0 ([str "C"].map Op.insert) = some t ∧
      t.start (str "é") = some n0 ∧ traverse n0 (str "é") 128 = some (some r) ∧
      r.nd.char = 67 ∧ t.Has (str "é") = some true :=
  ⟨by decide, by decide, by decide, by decide, _, _, _, _, rfl, rfl, rfl, rfl, rfl, rfl⟩

end trie
